import Mathlib

/-!
# Call-stack merge and formatting (`agl/util/errs/stack.go`)

A shallow embedding of `stack.go`.

* A `stack` (`[]uintptr`) is a `List Nat`; index 0 is the innermost call.
* A Go `string` is a list of characters (`GoString`), one element per byte;
  the two separators `.` and `/` are single bytes.
* The `*Error` values are trees: an `Error` owns a stack and its field `Err`
  holds either another `*Error` or something that is not one.  Pointers are
  non-nil and the wrapped error is an object distinct from its wrapper.
* Loops are structural recursions on the loop bound.
-/

namespace Errs

/-! ## Data model -/

/-- Stacks are slices of program counters (`type stack []uintptr`). -/
abbrev stack := List Nat

/-- Go strings, one list element per byte. -/
abbrev GoString := List Char

/-- Dynamic value of the interface field `Err` of an `*Error`:
`foreign` is nil or an error whose dynamic type is not `*Error` (the type
assertion `e.Err.(*Error)` fails); `inner st c` is an `*Error` with stack
`st` and its own field `Err` equal to `c`. -/
inductive Cause where
  | foreign : Cause
  | inner (stack : stack) (Err : Cause) : Cause
  deriving DecidableEq, Repr

/-- The two fields of `*Error` that `stack.go` reads and writes. -/
structure Error where
  stack : stack
  Err : Cause
  deriving DecidableEq, Repr

/-! ## mergeStack -/

/-- The scanning loop of `mergeStack` (lines 29-36), started at index `i`
with flag `toMerge`; the first argument bounds the number of iterations.
The result is the pair `(i, toMerge)` on leaving the loop. -/
def mergeScan (a b : stack) : Nat → Nat → Bool → Nat × Bool
  | 0, i, toMerge => (i, toMerge)
  | fuel + 1, i, toMerge =>
    if i < a.length ∧ i < b.length then
      if a.getD (a.length - 1 - i) 0 ≠ b.getD (b.length - 1 - i) 0 then
        (i, toMerge)
      else
        mergeScan a b fuel (i + 1) true
    else
      (i, toMerge)

/-- Embedding of `mergeStack(e *Error)`: the result is the state of `e`
(and, inside it, of the wrapped error) after the call. -/
def mergeStack (e : Error) : Error :=
  match e.Err with
  | Cause.foreign => e
  | Cause.inner st2 err2 =>
    let r := mergeScan e.stack st2 (e.stack.length + 1) 0 false
    let i := r.1
    let toMerge := r.2
    if !toMerge then e
    else
      let head := st2.take (st2.length - i)
      let tail := e.stack
      { stack := head ++ tail, Err := Cause.inner [] err2 }

/-- Length of the longest common prefix of two lists. -/
def commonPrefixLen : List Nat → List Nat → Nat
  | x :: xs, y :: ys => if x = y then commonPrefixLen xs ys + 1 else 0
  | _, _ => 0

/-- The number `k` of the specification: how many consecutive positions,
counted from the outermost (last-index) end, hold identical program counters
in both stacks. -/
def sharedOutermost (a b : stack) : Nat :=
  commonPrefixLen a.reverse b.reverse

/-! ## Frames and the runtime -/

/-- The fields of `runtime.Frame` that `printStack` reads.  `Func` stands for
the result of `thisFrame.Func.Name()`, which is the empty string when the
frame has no `*Func`; `Line` is never negative for a resolved frame. -/
structure Frame where
  Func : GoString
  File : GoString
  Line : Nat
  deriving DecidableEq, Repr

/-- The zero value of `runtime.Frame` (`var f runtime.Frame`). -/
def Frame.zero : Frame := { Func := [], File := [], Line := 0 }

/-- What `stack.go` takes from outside the file: the symbol table of the
running binary (`resolve`, one frame per program counter, as the frame
iterator of section 9 of the specification), the frame classifier of the
package (`NewFrameSkipper seed` is the `ShouldSkip` predicate of the skipper
built from `seed`) and the package constant `Separator`. -/
structure Runtime where
  resolve : Nat → Frame
  NewFrameSkipper : GoString → GoString → Bool
  Separator : GoString

/-- Embedding of `runtime.Callers(skip, pcs)` over an explicit call chain:
`chain` lists the return addresses of the live frames of the goroutine,
innermost first, index 0 being the frame of `runtime.Callers` itself; at most
`cap` entries are written. -/
def runtimeCallers (chain : List Nat) (skip cap : Nat) : List Nat :=
  (chain.drop skip).take cap

/-- The constant `depth = 64` of `callers`. -/
def depth : Nat := 64

/-- Embedding of `callers(skip)`, run while the live frames are `chain`. -/
def callers (chain : List Nat) (skip : Nat) : stack :=
  runtimeCallers chain (3 + skip) depth

/-- Embedding of `frames.Next()` on the iterator returned by
`runtime.CallersFrames`: the state is the list of program counters not yet
consumed; the result is the frame, the flag `more` and the new state.  The
iterator is the one of section 9 of the specification, one frame per program
counter in input order; an iterator that adds or leaves out frames (a parent
frame behind an inlined call, a program counter without symbol) is not
covered. -/
def Next (R : Runtime) (frames : List Nat) : Frame × Bool × List Nat :=
  match frames with
  | [] => (Frame.zero, false, [])
  | pc :: rest => (R.resolve pc, !rest.isEmpty, rest)

/-- The loop of `frame` (lines 139-145) with `k` iterations left. -/
def frameLoop (R : Runtime) : Nat → List Nat → Frame → Frame
  | 0, _, f => f
  | k + 1, frames, _ =>
    match Next R frames with
    | (f, ok, rest) => if !ok then f else frameLoop R k rest f

/-- Embedding of `frame(callers, n)` for `n ≥ 0`: the loop variable runs from
`len(callers)-1` down to `n`, hence `len(callers) - n` iterations. -/
def frame (R : Runtime) (callers : List Nat) (n : Nat) : Frame :=
  frameLoop R (callers.length - n) callers Frame.zero

/-! ## Name compression -/

/-- The separator set `"./"` of line 108. -/
def separators : GoString := ['.', '/']

/-- Embedding of `strings.IndexAny(s, chars)`; `none` is the result `-1`. -/
def IndexAny (s chars : GoString) : Option Nat :=
  match s with
  | [] => none
  | c :: cs => if c ∈ chars then some 0 else (IndexAny cs chars).map (· + 1)

/-- Embedding of `strings.HasPrefix(s, pre)`. -/
def HasPrefix (s pre : GoString) : Bool :=
  pre.isPrefixOf s

/-- The loop of lines 107-116, entered with the current value of `trim`.
The result is `trim` on leaving the loop through one of its two `break`s;
`none` means that the loop was still running after `fuel` iterations or
that a slice expression (`name[trim:]`, `name[:j+trim]`) was out of range. -/
def trimLoop (prev name : GoString) : Nat → Nat → Option Nat
  | 0, _ => none
  | fuel + 1, trim =>
    if name.length < trim then none
    else
      match IndexAny (name.drop trim) separators with
      | none => some trim
      | some j =>
        if name.length < j + trim then none
        else if !HasPrefix prev (name.take (j + trim)) then some trim
        else trimLoop prev name fuel (trim + (j + 1))

/-- Value of `trim` after the loop of lines 106-116; every iteration moves
`trim` past one byte of `name` at least, so `len(name) + 1` iterations are
enough (`trimLoop_terminates`). -/
def trimOf (prev name : GoString) : Nat :=
  (trimLoop prev name (name.length + 1) 0).getD 0

/-- Decimal text of `%d`. -/
def decimal (n : Nat) : GoString := (Nat.repr n).toList

/-- The text of `fmt.Sprintf("<%d frames omitted>", n)`. -/
def omittedLine (n : Nat) : GoString :=
  ['<'] ++ decimal n ++ " frames omitted>".toList

/-- The text of `fmt.Sprintf("%v:%d: %s%s", file, line, dots, rest)`. -/
def frameLine (file : GoString) (line : Nat) (dots rest : GoString) : GoString :=
  file ++ [':'] ++ decimal line ++ [':', ' '] ++ dots ++ rest

/-- Lines 104-123: the output line of `thisFrame`, given the name `prev` of
the last frame printed before it. -/
def renderFrame (thisFrame : Frame) (prev : GoString) : GoString :=
  let name := thisFrame.Func
  let trim := trimOf prev name
  let dots : GoString := if trim = 0 then [] else ['.', '.', '.']
  frameLine thisFrame.File thisFrame.Line dots (name.drop trim)

/-! ## printStack -/

/-- The variables of `printStack` that change in its main loop. -/
structure PrintState where
  prev : GoString
  diff : Bool
  lines : List GoString
  skippingFrames : Nat
  deriving DecidableEq, Repr

/-- One iteration of the loop of lines 76-126, for index `i`. -/
def printStep (R : Runtime) (s printCallers : stack) (frameSkipper : GoString → Bool)
    (st : PrintState) (i : Nat) : PrintState :=
  let thisFrame := frame R s i
  let name := thisFrame.Func
  let compare := !st.diff && decide (i < printCallers.length)
  if compare = true ∧ name = (frame R printCallers i).Func then st
  else
    let diff := if compare then true else st.diff
    if name = st.prev then { st with diff := diff }
    else if frameSkipper thisFrame.File = true then
      { st with diff := diff, skippingFrames := st.skippingFrames + 1 }
    else
      let lines :=
        if st.skippingFrames > 0 then st.lines ++ [omittedLine st.skippingFrames]
        else st.lines
      let skippingFrames := if st.skippingFrames > 0 then 0 else st.skippingFrames
      { prev := name, diff := diff,
        lines := lines ++ [renderFrame thisFrame st.prev],
        skippingFrames := skippingFrames }

/-- State of `printStack` after the first `n` iterations of its main loop. -/
def printLoop (R : Runtime) (s printCallers : stack) (frameSkipper : GoString → Bool)
    (relativeStackOnly : Bool) : Nat → PrintState
  | 0 => { prev := [], diff := !relativeStackOnly, lines := [], skippingFrames := 0 }
  | n + 1 =>
    printStep R s printCallers frameSkipper
      (printLoop R s printCallers frameSkipper relativeStackOnly n) n

/-- The frame bound to `lastFrame` on line 73: `frame(s, len(s)-1)`. -/
def lastFrame (R : Runtime) (s : stack) : Frame :=
  frame R s (s.length - 1)

/-- The classifier of line 74: `NewFrameSkipper(lastFrame.File)`, as its
`ShouldSkip` predicate. -/
def frameSkipper (R : Runtime) (s : stack) : GoString → Bool :=
  R.NewFrameSkipper (lastFrame R s).File

/-- State of `printStack` on the non-empty stack `s` after the first `n`
iterations of its main loop. -/
def walk (R : Runtime) (printCallers s : stack) (relativeStackOnly : Bool) (n : Nat) :
    PrintState :=
  printLoop R s printCallers (frameSkipper R s) relativeStackOnly n

/-- The slice `lines` of `printStack` when its main loop is over, for a
non-empty stack `s`. -/
def printLines (R : Runtime) (printCallers s : stack) (relativeStackOnly : Bool) :
    List GoString :=
  (walk R printCallers s relativeStackOnly s.length).lines

/-- Modelled from the spec: `pad`, a helper of the package that is not in
`stack.go`.  The output contract (section 6) has the lines joined by the
separator with none after the last line, so `pad` writes the separator only
into a buffer that already holds text. -/
def pad (b str : GoString) : GoString :=
  if b.isEmpty then b else b ++ str

/-- The printing loop of lines 129-132: `lines` is written last entry first. -/
def writeLines (R : Runtime) (lines : List GoString) (b : GoString) : GoString :=
  lines.reverse.foldl (fun buf line => pad buf R.Separator ++ line) b

/-- Embedding of `printStack(s, b, relativeStackOnly)`: the result is the
content of the buffer after the call; `chain` lists the live frames at the
call of `runtime.Callers` made by `callers(0)` on line 62. -/
def printStack (R : Runtime) (chain : List Nat) (s : stack) (b : GoString)
    (relativeStackOnly : Bool) : GoString :=
  if s.length = 0 then b
  else
    let printCallers := callers chain 0
    writeLines R (printLines R printCallers s relativeStackOnly) b

/-- Embedding of `GetStack(depth)` for `depth ≥ 0`: `chain` lists the live
frames at the call of `runtime.Callers` made for `callers(depth+1)`, `chain2`
those at the call made inside `printStack`. -/
def GetStack (R : Runtime) (chain chain2 : List Nat) (depth : Nat) : GoString :=
  printStack R chain2 (callers chain (depth + 1)) [] false

/-- Whether iteration `i` of the main loop appended to `lines`, that is,
whether the frame at walk position `i` (`frame(s, i)`) is printed. -/
def emitted (R : Runtime) (printCallers s : stack) (relativeStackOnly : Bool) (i : Nat) :
    Prop :=
  (walk R printCallers s relativeStackOnly i).lines.length <
    (walk R printCallers s relativeStackOnly (i + 1)).lines.length

/-- Positions `p < q` of two frames printed one after the other: both are
printed and no frame between them is. -/
def consecutivelyEmitted (R : Runtime) (printCallers s : stack) (relativeStackOnly : Bool)
    (p q : Nat) : Prop :=
  p < q ∧ emitted R printCallers s relativeStackOnly p ∧
    emitted R printCallers s relativeStackOnly q ∧
    ∀ r, r < q → p < r → ¬ emitted R printCallers s relativeStackOnly r

/-! ## Concrete runtimes for the examples -/

/-- The separator of the examples. -/
def demoSeparator : GoString := ":\n\t".toList

/-- A symbol table for the examples: an application (`main.*`, `pkg/...`)
that calls through a vendored library. -/
def demoResolve (pc : Nat) : Frame :=
  match pc with
  | 1 => { Func := "main.main".toList, File := "app/main.go".toList, Line := 10 }
  | 2 => { Func := "main.handle".toList, File := "app/handle.go".toList, Line := 20 }
  | 3 => { Func := "main.validate".toList, File := "app/validate.go".toList, Line := 30 }
  | 4 => { Func := "main.capturePoint".toList, File := "app/capture.go".toList, Line := 40 }
  | 5 => { Func := "lib.Each".toList, File := "vendor/lib/each.go".toList, Line := 50 }
  | 6 => { Func := "lib.apply".toList, File := "vendor/lib/apply.go".toList, Line := 60 }
  | 7 => { Func := "lib.call".toList, File := "vendor/lib/call.go".toList, Line := 70 }
  | 8 => { Func := "pkg/sub.Foo".toList, File := "pkg/sub/foo.go".toList, Line := 80 }
  | 9 => { Func := "pkg/sub.Bar".toList, File := "pkg/sub/bar.go".toList, Line := 90 }
  | 10 => { Func := "other/pkg.Baz".toList, File := "other/pkg/baz.go".toList, Line := 100 }
  | 11 => { Func := "main.main.func1".toList, File := "app/main.go".toList, Line := 12 }
  | 12 => { Func := "main.handle".toList, File := "vendor/gen/handle.go".toList, Line := 7 }
  | 13 => { Func := [], File := "app/bridge.c".toList, Line := 3 }
  | _ => Frame.zero

/-- A classifier that skips the vendored files, whatever its seed. -/
def demoRuntime : Runtime :=
  { resolve := demoResolve,
    NewFrameSkipper := fun _ file => "vendor/".toList.isPrefixOf file,
    Separator := demoSeparator }

/-- A classifier that keeps the files of the directory of its seed only
(the seed up to its last `/`). -/
def sameDirRuntime : Runtime :=
  { resolve := demoResolve,
    NewFrameSkipper := fun seed file =>
      !((seed.reverse.dropWhile (fun c => c != '/')).reverse.isPrefixOf file),
    Separator := demoSeparator }

instance (R : Runtime) (printCallers s : stack) (rel : Bool) (i : Nat) :
    Decidable (emitted R printCallers s rel i) := by
  unfold emitted; infer_instance

instance (R : Runtime) (printCallers s : stack) (rel : Bool) (p q : Nat) :
    Decidable (consecutivelyEmitted R printCallers s rel p q) := by
  unfold consecutivelyEmitted; infer_instance

/-! ## Observations of the main loop for the remaining claims -/

/-- Whether iteration `i` leaves through the `continue` of line 83: the
test of lines 80-81 succeeds in the state before the iteration, so the frame
is dropped as shared with the call stack of `printStack`. -/
def droppedAsShared (R : Runtime) (printCallers s : stack) (relativeStackOnly : Bool)
    (i : Nat) : Prop :=
  (walk R printCallers s relativeStackOnly i).diff = false ∧ i < printCallers.length ∧
    (frame R s i).Func = (frame R printCallers i).Func

instance (R : Runtime) (printCallers s : stack) (rel : Bool) (i : Nat) :
    Decidable (droppedAsShared R printCallers s rel i) := by
  unfold droppedAsShared; infer_instance

/-- The number `m` of the de-duplication rule, in the words of the claim:
the largest `m ≤ min(len(s), len(printCallers))` such that the function
names of `frame(s, i)` and `frame(printCallers, i)` agree for every
`i < m`. -/
def sharedRun (R : Runtime) (printCallers s : stack) : Nat :=
  Nat.findGreatest
    (fun m => ∀ i, i < m → (frame R s i).Func = (frame R printCallers i).Func)
    (min s.length printCallers.length)

/-- What one `append` of the main loop adds to `lines`: the marker of a run
of `N` skipped frames (line 100) or the line of the frame at walk position
`i` (line 123). -/
inductive Entry where
  | omitted (N : Nat) : Entry
  | frameAt (i : Nat) : Entry
  deriving DecidableEq, Repr

/-- The appends made by the first `n` iterations of the main loop, in
order: an iteration that prints its frame appends the marker of the pending
run, if any, and then the line of the frame. -/
def entries (R : Runtime) (printCallers s : stack) (relativeStackOnly : Bool) :
    Nat → List Entry
  | 0 => []
  | n + 1 =>
    if emitted R printCallers s relativeStackOnly n then
      entries R printCallers s relativeStackOnly n ++
        (if 0 < (walk R printCallers s relativeStackOnly n).skippingFrames then
          [Entry.omitted (walk R printCallers s relativeStackOnly n).skippingFrames]
        else []) ++
        [Entry.frameAt n]
    else entries R printCallers s relativeStackOnly n

/-- The text of an entry, as `fmt.Sprintf` builds it on lines 100 and 123. -/
def entryText (R : Runtime) (printCallers s : stack) (relativeStackOnly : Bool) :
    Entry → GoString
  | Entry.omitted N => omittedLine N
  | Entry.frameAt i =>
    renderFrame (frame R s i) (walk R printCallers s relativeStackOnly i).prev

/-- The number `N` that a marker reports; 0 for the line of a frame. -/
def omittedCount : Entry → Nat
  | Entry.omitted N => N
  | Entry.frameAt _ => 0

/-- Whether an entry is the line of a frame. -/
def isFrameEntry : Entry → Bool
  | Entry.omitted _ => false
  | Entry.frameAt _ => true

/-- A symbol table for the examples of name compression: `ab.x` called from
`abc.d`, and `io.Copy` called from `io/ioutil.ReadAll`. -/
def tokenResolve (pc : Nat) : Frame :=
  match pc with
  | 1 => { Func := "abc.d".toList, File := "abc/d.go".toList, Line := 1 }
  | 2 => { Func := "ab.x".toList, File := "ab/x.go".toList, Line := 2 }
  | 3 => { Func := "io/ioutil.ReadAll".toList, File := "io/ioutil/ioutil.go".toList,
           Line := 3 }
  | 4 => { Func := "io.Copy".toList, File := "io/io.go".toList, Line := 4 }
  | _ => Frame.zero

/-- The runtime of the examples of name compression; its classifier skips
nothing. -/
def tokenRuntime : Runtime :=
  { resolve := tokenResolve,
    NewFrameSkipper := fun _ _ => false,
    Separator := demoSeparator }

/-! ## Lemmas: the scan of `mergeStack` -/

theorem commonPrefixLen_nil_left (ys : List Nat) : commonPrefixLen [] ys = 0 := by
  simp [commonPrefixLen]

theorem commonPrefixLen_nil_right (xs : List Nat) : commonPrefixLen xs [] = 0 := by
  cases xs <;> simp [commonPrefixLen]

theorem getD_outermost (a : stack) (i : Nat) (h : i < a.length) (hr : i < a.reverse.length) :
    a.getD (a.length - 1 - i) 0 = a.reverse[i] := by
  rw [List.getElem_reverse]
  rw [List.getD_eq_getElem?_getD, List.getElem?_eq_getElem (by omega)]
  simp

theorem mergeScan_eq (a b : stack) :
    ∀ (fuel i : Nat) (tm : Bool), a.length < fuel + i →
      mergeScan a b fuel i tm =
        (i + commonPrefixLen (a.reverse.drop i) (b.reverse.drop i),
          tm || decide (0 < commonPrefixLen (a.reverse.drop i) (b.reverse.drop i))) := by
  intro fuel
  induction fuel with
  | zero =>
    intro i tm h
    have : a.reverse.drop i = [] := by
      apply List.drop_eq_nil_of_le; simp; omega
    simp [mergeScan, this, commonPrefixLen_nil_left]
  | succ fuel ih =>
    intro i tm h
    unfold mergeScan
    by_cases hc : i < a.length ∧ i < b.length
    · have ha : i < a.reverse.length := by simpa using hc.1
      have hb : i < b.reverse.length := by simpa using hc.2
      rw [if_pos hc, getD_outermost a i hc.1 ha, getD_outermost b i hc.2 hb]
      rw [List.drop_eq_getElem_cons ha, List.drop_eq_getElem_cons hb]
      by_cases he : a.reverse[i] = b.reverse[i]
      · rw [if_neg (by simpa using he), ih (i + 1) true (by omega)]
        rw [commonPrefixLen, if_pos he]
        simp
        omega
      · rw [if_pos he, commonPrefixLen, if_neg he]
        simp
    · rw [if_neg hc]
      have : a.reverse.drop i = [] ∨ b.reverse.drop i = [] := by
        rcases Nat.lt_or_ge i a.length with h1 | h1
        · right; apply List.drop_eq_nil_of_le; simp; omega
        · left; apply List.drop_eq_nil_of_le; simp; omega
      rcases this with h1 | h1 <;> simp [h1, commonPrefixLen_nil_left, commonPrefixLen_nil_right]

theorem mergeScan_run (a b : stack) :
    mergeScan a b (a.length + 1) 0 false =
      (sharedOutermost a b, decide (0 < sharedOutermost a b)) := by
  rw [mergeScan_eq a b (a.length + 1) 0 false (by omega)]
  simp [sharedOutermost]

theorem sharedOutermost_nil_left (b : stack) : sharedOutermost [] b = 0 := by
  simp [sharedOutermost, commonPrefixLen_nil_left]

theorem sharedOutermost_nil_right (a : stack) : sharedOutermost a [] = 0 := by
  simp [sharedOutermost, commonPrefixLen_nil_right]

theorem sharedOutermost_eq_zero_of_last_ne (a b : stack)
    (h : a.getLast? ≠ b.getLast?) : sharedOutermost a b = 0 := by
  unfold sharedOutermost
  rw [← List.head?_reverse, ← List.head?_reverse] at h
  cases ha : a.reverse with
  | nil => exact commonPrefixLen_nil_left _
  | cons x xs =>
    cases hb : b.reverse with
    | nil => exact commonPrefixLen_nil_right _
    | cons y ys =>
      rw [ha, hb] at h
      have hxy : x ≠ y := by
        intro hxy; apply h; simp [hxy]
      rw [commonPrefixLen, if_neg hxy]

theorem mergeStack_merged (A B : stack) (c : Cause) (hk : 0 < sharedOutermost A B) :
    mergeStack { stack := A, Err := Cause.inner B c } =
      { stack := B.take (B.length - sharedOutermost A B) ++ A, Err := Cause.inner [] c } := by
  simp [mergeStack, mergeScan_run, hk]

theorem mergeStack_unmerged (A B : stack) (c : Cause) (hk : sharedOutermost A B = 0) :
    mergeStack { stack := A, Err := Cause.inner B c } =
      { stack := A, Err := Cause.inner B c } := by
  simp [mergeStack, mergeScan_run, hk]

/-! ## Claims about `mergeStack` -/

/-- C1 (merge prefix property): when the outer error with stack `A` directly
wraps an `*Error` with stack `B` and the two stacks agree on `k ≥ 1`
consecutive positions counted from the outermost end, `mergeStack` leaves
the outer error with the stack `B[0 .. len(B)-k)` followed by all of `A`, and
the wrapped error with an empty stack (its own `Err` untouched). -/
theorem mergeStack_prefix_property (A B : stack) (c : Cause)
    (hk : 1 ≤ sharedOutermost A B) :
    (mergeStack { stack := A, Err := Cause.inner B c }).stack =
        B.take (B.length - sharedOutermost A B) ++ A ∧
      (mergeStack { stack := A, Err := Cause.inner B c }).Err = Cause.inner [] c := by
  rw [mergeStack_merged A B c hk]
  exact ⟨rfl, rfl⟩

theorem mergeStack_prefix_property_witness :
    1 ≤ sharedOutermost [10, 20, 30, 40] [7, 8, 30, 40] ∧
      ((mergeStack { stack := [10, 20, 30, 40],
                     Err := Cause.inner [7, 8, 30, 40] Cause.foreign }).stack =
          [7, 8, 30, 40].take
              ([7, 8, 30, 40].length - sharedOutermost [10, 20, 30, 40] [7, 8, 30, 40]) ++
            [10, 20, 30, 40] ∧
        (mergeStack { stack := [10, 20, 30, 40],
                      Err := Cause.inner [7, 8, 30, 40] Cause.foreign }).Err =
          Cause.inner [] Cause.foreign) :=
  ⟨by decide,
    mergeStack_prefix_property [10, 20, 30, 40] [7, 8, 30, 40] Cause.foreign (by decide)⟩

/-- C2 (merge is a silent no-op on non-applicable inputs): if `e.Err` is not
an `*Error`, or the outer stack is empty, or the inner stack is empty, or the
outermost program counters differ (equivalently `k = 0`), `mergeStack` leaves
the outer and the inner error exactly as they were. -/
theorem mergeStack_noop (e : Error)
    (h : e.Err = Cause.foreign ∨
      ∃ B c, e.Err = Cause.inner B c ∧
        (e.stack = [] ∨ B = [] ∨ e.stack.getLast? ≠ B.getLast? ∨
          sharedOutermost e.stack B = 0)) :
    mergeStack e = e := by
  obtain ⟨A, err⟩ := e
  rcases h with h | ⟨B, c, h, hcase⟩
  · simp only at h
    subst h
    rfl
  · simp only at h hcase
    subst h
    apply mergeStack_unmerged
    rcases hcase with h1 | h1 | h1 | h1
    · rw [h1]; exact sharedOutermost_nil_left B
    · rw [h1]; exact sharedOutermost_nil_right A
    · exact sharedOutermost_eq_zero_of_last_ne A B h1
    · exact h1

theorem mergeStack_noop_witness :
    [1, 2, 3].getLast? ≠ [4, 5, 6].getLast? ∧
      mergeStack { stack := [1, 2, 3], Err := Cause.inner [4, 5, 6] Cause.foreign } =
        { stack := [1, 2, 3], Err := Cause.inner [4, 5, 6] Cause.foreign } :=
  ⟨by decide,
    mergeStack_noop { stack := [1, 2, 3], Err := Cause.inner [4, 5, 6] Cause.foreign }
      (Or.inr ⟨[4, 5, 6], Cause.foreign, rfl, Or.inr (Or.inr (Or.inl (by decide)))⟩)⟩

/-- C3 (merge idempotence): calling `mergeStack` twice in a row leaves the
outer error and its wrapped error in the same state as calling it once. -/
theorem mergeStack_idempotent (e : Error) :
    mergeStack (mergeStack e) = mergeStack e := by
  obtain ⟨A, err⟩ := e
  cases err with
  | foreign => rfl
  | inner B c =>
    rcases Nat.eq_zero_or_pos (sharedOutermost A B) with hk | hk
    · rw [mergeStack_unmerged A B c hk, mergeStack_unmerged A B c hk]
    · rw [mergeStack_merged A B c hk]
      exact mergeStack_unmerged _ [] c (sharedOutermost_nil_right _)

/-! ## Lemmas: frame resolution -/

theorem frameLoop_eq (R : Runtime) :
    ∀ (k : Nat) (frames : List Nat) (f : Frame), 1 ≤ k → k ≤ frames.length →
      frameLoop R k frames f = R.resolve (frames.getD (k - 1) 0) := by
  intro k
  induction k with
  | zero => intro frames f h; omega
  | succ k ih =>
    intro frames f _ hlen
    cases frames with
    | nil => simp at hlen
    | cons pc rest =>
      simp only [frameLoop, Next]
      cases rest with
      | nil =>
        have : k = 0 := by simpa using hlen
        subst this
        simp
      | cons pc2 rest2 =>
        cases k with
        | zero => simp [frameLoop]
        | succ k =>
          have h2 := ih (pc2 :: rest2) (R.resolve pc) (by omega) (by simpa using hlen)
          simpa using h2

/-- Position `n` of `frame` counts from the last index of the slice. -/
theorem frame_eq (R : Runtime) (s : stack) (n : Nat) (h : n < s.length) :
    frame R s n = R.resolve (s.getD (s.length - 1 - n) 0) := by
  unfold frame
  rw [frameLoop_eq R (s.length - n) s Frame.zero (by omega) (by omega)]
  congr 2
  omega

/-! ## Lemmas: the trim loop -/

theorem IndexAny_none (chars : GoString) :
    ∀ (s : GoString), IndexAny s chars = none →
      ∀ (i : Nat) (c : Char), s[i]? = some c → c ∉ chars := by
  intro s
  induction s with
  | nil => intro _ i c h; simp at h
  | cons x xs ih =>
    intro h i c hi
    unfold IndexAny at h
    by_cases hx : x ∈ chars
    · simp [hx] at h
    · simp only [hx, if_false, Option.map_eq_none'] at h
      cases i with
      | zero =>
        simp at hi
        subst hi
        exact hx
      | succ i =>
        simp at hi
        exact ih h i c hi

theorem IndexAny_some (chars : GoString) :
    ∀ (s : GoString) (j : Nat), IndexAny s chars = some j →
      (∃ c, s[j]? = some c ∧ c ∈ chars) ∧
        ∀ (i : Nat) (c : Char), i < j → s[i]? = some c → c ∉ chars := by
  intro s
  induction s with
  | nil => intro j h; simp [IndexAny] at h
  | cons x xs ih =>
    intro j h
    unfold IndexAny at h
    by_cases hx : x ∈ chars
    · simp only [hx, if_true, Option.some.injEq] at h
      subst h
      exact ⟨⟨x, by simp, hx⟩, by intro i c hi; omega⟩
    · simp only [hx, if_false, Option.map_eq_some'] at h
      obtain ⟨j2, hj2, rfl⟩ := h
      obtain ⟨⟨c, hc, hcm⟩, hbefore⟩ := ih j2 hj2
      refine ⟨⟨c, by simpa using hc, hcm⟩, ?_⟩
      intro i c2 hi hget
      cases i with
      | zero =>
        simp at hget
        subst hget
        exact hx
      | succ i =>
        simp at hget
        exact hbefore i c2 (by omega) hget

/-- The loop invariant of the trim loop, as a postcondition: started at a
`trim` within `name` with enough iterations left, the loop leaves through a
`break` with a value `t` that is `trim` itself or lies just behind a
separator whose preceding text is a prefix of `prev`, and no separator at or
behind `t` has that property. -/
theorem trimLoop_spec (prev name : GoString) :
    ∀ (fuel trim : Nat), trim ≤ name.length → name.length < fuel + trim →
      ∃ t, trimLoop prev name fuel trim = some t ∧ trim ≤ t ∧ t ≤ name.length ∧
        (t = trim ∨ ∃ c, 0 < t ∧ name[t - 1]? = some c ∧ c ∈ separators ∧
          name.take (t - 1) <+: prev) ∧
        ∀ (p : Nat) (c : Char), t ≤ p → name[p]? = some c → c ∈ separators →
          ¬ name.take p <+: prev := by
  intro fuel
  induction fuel with
  | zero => intro trim h1 h2; omega
  | succ fuel ih =>
    intro trim h1 h2
    unfold trimLoop
    rw [if_neg (by omega)]
    cases hidx : IndexAny (name.drop trim) separators with
    | none =>
      refine ⟨trim, rfl, Nat.le_refl _, h1, Or.inl rfl, ?_⟩
      intro p c hp hget hc _
      have := IndexAny_none separators _ hidx (p - trim) c
        (by rw [List.getElem?_drop]; rw [← hget]; congr 1; omega)
      exact this hc
    | some j =>
      obtain ⟨⟨c0, hc0, hc0m⟩, hbefore⟩ := IndexAny_some separators _ j hidx
      rw [List.getElem?_drop] at hc0
      have hjlt : trim + j < name.length := by
        rcases Nat.lt_or_ge (trim + j) name.length with h | h
        · exact h
        · rw [List.getElem?_eq_none h] at hc0; simp at hc0
      have hfirst : ∀ (p : Nat) (c : Char), trim ≤ p → name[p]? = some c →
          c ∈ separators → trim + j ≤ p := by
        intro p c hp hget hc
        rcases Nat.lt_or_ge p (trim + j) with h | h
        · exfalso
          refine hbefore (p - trim) c (by omega) ?_ hc
          rw [List.getElem?_drop, ← hget]; congr 1; omega
        · exact h
      simp only
      rw [if_neg (by omega)]
      by_cases hpre : HasPrefix prev (name.take (j + trim)) = true
      · rw [if_neg (by simp [hpre])]
        obtain ⟨t, ht, hle, hlen, hshape, hmax⟩ := ih (trim + (j + 1)) (by omega) (by omega)
        refine ⟨t, ht, by omega, hlen, ?_, hmax⟩
        right
        rcases hshape with h | h
        · subst h
          refine ⟨c0, by omega, ?_, hc0m, ?_⟩
          · rw [← hc0]; congr 1
          · have : trim + (j + 1) - 1 = j + trim := by omega
            rw [this]
            simpa [HasPrefix] using hpre
        · exact h
      · rw [if_pos (by simp [hpre])]
        refine ⟨trim, rfl, Nat.le_refl _, h1, Or.inl rfl, ?_⟩
        intro p c hp hget hc hp2
        apply hpre
        have hle := hfirst p c hp hget hc
        have h3 : name.take (j + trim) <+: name.take p :=
          List.take_prefix_take_left name (by omega)
        have h4 := h3.trans hp2
        simpa [HasPrefix] using h4

/-- The trim loop terminates within `len(name) + 1` iterations, without an
out-of-range slice, and `trimOf` is its result. -/
theorem trimLoop_terminates (prev name : GoString) :
    trimLoop prev name (name.length + 1) 0 = some (trimOf prev name) := by
  obtain ⟨t, ht, _⟩ := trimLoop_spec prev name (name.length + 1) 0 (by omega) (by omega)
  simp [trimOf, ht]

theorem trimOf_le (prev name : GoString) : trimOf prev name ≤ name.length := by
  obtain ⟨t, ht, _, hlen, _⟩ :=
    trimLoop_spec prev name (name.length + 1) 0 (by omega) (by omega)
  simp [trimOf, ht, hlen]

/-- Where the cut lies: `trim` is 0 or the byte before it is a separator
of `name` and the text before that separator is a prefix of `prev`. -/
theorem trimOf_shape (prev name : GoString) :
    trimOf prev name = 0 ∨
      ∃ c, 0 < trimOf prev name ∧ name[trimOf prev name - 1]? = some c ∧ c ∈ separators ∧
        name.take (trimOf prev name - 1) <+: prev := by
  obtain ⟨t, ht, _, _, hshape, _⟩ :=
    trimLoop_spec prev name (name.length + 1) 0 (by omega) (by omega)
  have : trimOf prev name = t := by simp [trimOf, ht]
  rw [this]
  exact hshape

/-- No separator at or behind the cut is preceded by a prefix of `prev`. -/
theorem trimOf_maximal (prev name : GoString) (p : Nat) (c : Char)
    (hp : trimOf prev name ≤ p) (hget : name[p]? = some c) (hc : c ∈ separators) :
    ¬ name.take p <+: prev := by
  obtain ⟨t, ht, _, _, _, hmax⟩ :=
    trimLoop_spec prev name (name.length + 1) 0 (by omega) (by omega)
  have : trimOf prev name = t := by simp [trimOf, ht]
  rw [this] at hp
  exact hmax p c hp hget hc
/-! ## Lemmas: one iteration of the main loop -/

section Step

variable (R : Runtime) (s printCallers : stack) (sk : GoString → Bool)

/-- Rule (a): the frame is shared with the call stack of `printStack`. -/
theorem printStep_shared (st : PrintState) (i : Nat)
    (hd : st.diff = false) (hi : i < printCallers.length)
    (hn : (frame R s i).Func = (frame R printCallers i).Func) :
    printStep R s printCallers sk st i = st := by
  simp [printStep, hd, hi, hn]

/-- Rule (b): the name was printed last. -/
theorem printStep_repeat (st : PrintState) (i : Nat)
    (ha : ¬ (st.diff = false ∧ i < printCallers.length ∧
      (frame R s i).Func = (frame R printCallers i).Func))
    (hn : (frame R s i).Func = st.prev) :
    printStep R s printCallers sk st i =
      { st with diff := st.diff || decide (i < printCallers.length) } := by
  unfold printStep
  cases hd : st.diff <;> by_cases hi : i < printCallers.length <;>
    simp_all

/-- Rule (c): the classifier skips the file. -/
theorem printStep_skip (st : PrintState) (i : Nat)
    (ha : ¬ (st.diff = false ∧ i < printCallers.length ∧
      (frame R s i).Func = (frame R printCallers i).Func))
    (hn : (frame R s i).Func ≠ st.prev) (hs : sk (frame R s i).File = true) :
    printStep R s printCallers sk st i =
      { st with diff := st.diff || decide (i < printCallers.length),
                skippingFrames := st.skippingFrames + 1 } := by
  unfold printStep
  cases hd : st.diff <;> by_cases hi : i < printCallers.length <;>
    simp_all

/-- Otherwise the frame is printed, behind the marker of a pending run. -/
theorem printStep_emit (st : PrintState) (i : Nat)
    (ha : ¬ (st.diff = false ∧ i < printCallers.length ∧
      (frame R s i).Func = (frame R printCallers i).Func))
    (hn : (frame R s i).Func ≠ st.prev) (hs : sk (frame R s i).File = false) :
    printStep R s printCallers sk st i =
      { prev := (frame R s i).Func,
        diff := st.diff || decide (i < printCallers.length),
        lines := (if 0 < st.skippingFrames then st.lines ++ [omittedLine st.skippingFrames]
                  else st.lines) ++ [renderFrame (frame R s i) st.prev],
        skippingFrames := 0 } := by
  unfold printStep
  cases hd : st.diff <;> by_cases hi : i < printCallers.length <;>
    by_cases hz : 0 < st.skippingFrames <;> simp_all

end Step
/-! ## Lemmas: the state along the main loop -/

section Loop

variable (R : Runtime) (s printCallers : stack) (sk : GoString → Bool) (rel : Bool)

/-- The four ways through one iteration, by what they leave in the state. -/
theorem printLoop_cases (n : Nat) :
    (printLoop R s printCallers sk rel (n + 1) = printLoop R s printCallers sk rel n) ∨
    (printLoop R s printCallers sk rel (n + 1) =
      { printLoop R s printCallers sk rel n with
        diff := (printLoop R s printCallers sk rel n).diff ||
          decide (n < printCallers.length) }) ∨
    (printLoop R s printCallers sk rel (n + 1) =
      { printLoop R s printCallers sk rel n with
        diff := (printLoop R s printCallers sk rel n).diff ||
          decide (n < printCallers.length),
        skippingFrames := (printLoop R s printCallers sk rel n).skippingFrames + 1 }) ∨
    ((¬ ((printLoop R s printCallers sk rel n).diff = false ∧ n < printCallers.length ∧
          (frame R s n).Func = (frame R printCallers n).Func) ∧
        (frame R s n).Func ≠ (printLoop R s printCallers sk rel n).prev ∧
        sk (frame R s n).File = false) ∧
      printLoop R s printCallers sk rel (n + 1) =
        { prev := (frame R s n).Func,
          diff := (printLoop R s printCallers sk rel n).diff ||
            decide (n < printCallers.length),
          lines := (if 0 < (printLoop R s printCallers sk rel n).skippingFrames then
              (printLoop R s printCallers sk rel n).lines ++
                [omittedLine (printLoop R s printCallers sk rel n).skippingFrames]
            else (printLoop R s printCallers sk rel n).lines) ++
            [renderFrame (frame R s n) (printLoop R s printCallers sk rel n).prev],
          skippingFrames := 0 }) := by
  generalize hst : printLoop R s printCallers sk rel n = st
  have hsucc : printLoop R s printCallers sk rel (n + 1) =
      printStep R s printCallers sk st n := by
    rw [← hst]; rfl
  rw [hsucc]
  by_cases ha : st.diff = false ∧ n < printCallers.length ∧
      (frame R s n).Func = (frame R printCallers n).Func
  · exact Or.inl (printStep_shared R s printCallers sk st n ha.1 ha.2.1 ha.2.2)
  · by_cases hn : (frame R s n).Func = st.prev
    · exact Or.inr (Or.inl (printStep_repeat R s printCallers sk st n ha hn))
    · by_cases hs : sk (frame R s n).File = true
      · exact Or.inr (Or.inr (Or.inl (printStep_skip R s printCallers sk st n ha hn hs)))
      · have hs2 : sk (frame R s n).File = false := by simpa using hs
        exact Or.inr (Or.inr (Or.inr
          ⟨⟨ha, hn, hs2⟩, printStep_emit R s printCallers sk st n ha hn hs2⟩))

/-- An iteration that appended to `lines` printed its frame: none of the
three rules dropped it, and the state afterwards is that of line 125. -/
theorem printLoop_appended (n : Nat)
    (h : (printLoop R s printCallers sk rel n).lines.length <
      (printLoop R s printCallers sk rel (n + 1)).lines.length) :
    (¬ ((printLoop R s printCallers sk rel n).diff = false ∧ n < printCallers.length ∧
          (frame R s n).Func = (frame R printCallers n).Func) ∧
        (frame R s n).Func ≠ (printLoop R s printCallers sk rel n).prev ∧
        sk (frame R s n).File = false) ∧
      printLoop R s printCallers sk rel (n + 1) =
        { prev := (frame R s n).Func,
          diff := (printLoop R s printCallers sk rel n).diff ||
            decide (n < printCallers.length),
          lines := (if 0 < (printLoop R s printCallers sk rel n).skippingFrames then
              (printLoop R s printCallers sk rel n).lines ++
                [omittedLine (printLoop R s printCallers sk rel n).skippingFrames]
            else (printLoop R s printCallers sk rel n).lines) ++
            [renderFrame (frame R s n) (printLoop R s printCallers sk rel n).prev],
          skippingFrames := 0 } := by
  rcases printLoop_cases R s printCallers sk rel n with h1 | h1 | h1 | h1
  · rw [h1] at h; omega
  · rw [h1] at h; simp at h
  · rw [h1] at h; simp at h
  · exact h1

/-- An iteration that did not append left `lines` and `prev` alone. -/
theorem printLoop_not_appended (n : Nat)
    (h : ¬ (printLoop R s printCallers sk rel n).lines.length <
      (printLoop R s printCallers sk rel (n + 1)).lines.length) :
    (printLoop R s printCallers sk rel (n + 1)).lines =
        (printLoop R s printCallers sk rel n).lines ∧
      (printLoop R s printCallers sk rel (n + 1)).prev =
        (printLoop R s printCallers sk rel n).prev := by
  rcases printLoop_cases R s printCallers sk rel n with h1 | h1 | h1 | h1
  · rw [h1]; exact ⟨rfl, rfl⟩
  · rw [h1]; exact ⟨rfl, rfl⟩
  · rw [h1]; exact ⟨rfl, rfl⟩
  · exfalso
    apply h
    rw [h1.2]
    simp only [List.length_append, List.length_singleton]
    split
    · simp; omega
    · simp

/-- Lines are only ever appended. -/
theorem printLoop_lines_mono (n : Nat) :
    (printLoop R s printCallers sk rel n).lines <+:
      (printLoop R s printCallers sk rel (n + 1)).lines := by
  rcases printLoop_cases R s printCallers sk rel n with h1 | h1 | h1 | h1
  · rw [h1]
  · rw [h1]
  · rw [h1]
  · rw [h1.2]
    simp only
    split
    · rw [List.append_assoc]; exact List.prefix_append _ _
    · exact List.prefix_append _ _

theorem printLoop_lines_le (n m : Nat) (h : n ≤ m) :
    (printLoop R s printCallers sk rel n).lines <+:
      (printLoop R s printCallers sk rel m).lines := by
  induction m with
  | zero =>
    have : n = 0 := by omega
    subst this
    exact List.prefix_refl _
  | succ m ih =>
    rcases Nat.lt_or_ge n (m + 1) with h1 | h1
    · exact (ih (by omega)).trans (printLoop_lines_mono R s printCallers sk rel m)
    · have : n = m + 1 := by omega
      subst this
      exact List.prefix_refl _

/-- The comparison with `printCallers` is over once `diff` is set or the
index has left `printCallers`; it stays over. -/
theorem printLoop_settled_succ (n : Nat)
    (h : (printLoop R s printCallers sk rel n).diff = true ∨ printCallers.length ≤ n) :
    (printLoop R s printCallers sk rel (n + 1)).diff = true ∨
      printCallers.length ≤ n + 1 := by
  rcases h with h | h
  · left
    rcases printLoop_cases R s printCallers sk rel n with h1 | h1 | h1 | h1
    · rw [h1]; exact h
    · rw [h1]; simp [h]
    · rw [h1]; simp [h]
    · rw [h1.2]; simp [h]
  · right; omega

theorem printLoop_settled_after (p : Nat)
    (h : (printLoop R s printCallers sk rel p).lines.length <
      (printLoop R s printCallers sk rel (p + 1)).lines.length) :
    ∀ q, p < q →
      (printLoop R s printCallers sk rel q).diff = true ∨ printCallers.length ≤ q := by
  intro q hq
  induction q with
  | zero => omega
  | succ q ih =>
    rcases Nat.lt_or_ge p q with h1 | h1
    · exact printLoop_settled_succ R s printCallers sk rel q (ih h1)
    · have : q = p := by omega
      subst this
      have h2 := (printLoop_appended R s printCallers sk rel q h).2
      rw [h2]
      simp only
      by_cases hlt : q < printCallers.length
      · left; simp [hlt]
      · right; omega

/-- Between two frames printed one after the other, `prev` is the name of
the first. -/
theorem printLoop_prev_between (p : Nat)
    (h : (printLoop R s printCallers sk rel p).lines.length <
      (printLoop R s printCallers sk rel (p + 1)).lines.length) :
    ∀ q, p < q →
      (∀ r, p < r → r < q →
        ¬ (printLoop R s printCallers sk rel r).lines.length <
          (printLoop R s printCallers sk rel (r + 1)).lines.length) →
      (printLoop R s printCallers sk rel q).prev = (frame R s p).Func := by
  intro q hq
  induction q with
  | zero => omega
  | succ q ih =>
    intro hnone
    rcases Nat.lt_or_ge p q with h1 | h1
    · have h2 := ih h1 (fun r hr1 hr2 => hnone r hr1 (by omega))
      have h3 := printLoop_not_appended R s printCallers sk rel q (hnone q h1 (by omega))
      rw [h3.2, h2]
    · have : q = p := by omega
      subst this
      rw [(printLoop_appended R s printCallers sk rel q h).2]

end Loop

/-- A frame is printed exactly when none of the three rules drops it. -/
theorem emitted_iff (R : Runtime) (printCallers s : stack) (rel : Bool) (i : Nat) :
    emitted R printCallers s rel i ↔
      (¬ ((walk R printCallers s rel i).diff = false ∧ i < printCallers.length ∧
          (frame R s i).Func = (frame R printCallers i).Func) ∧
        (frame R s i).Func ≠ (walk R printCallers s rel i).prev ∧
        frameSkipper R s (frame R s i).File = false) := by
  unfold emitted walk
  constructor
  · intro h
    exact (printLoop_appended R s printCallers (frameSkipper R s) rel i h).1
  · rintro ⟨ha, hn, hs⟩
    have hstep : printLoop R s printCallers (frameSkipper R s) rel (i + 1) =
        printStep R s printCallers (frameSkipper R s)
          (printLoop R s printCallers (frameSkipper R s) rel i) i := rfl
    rw [hstep, printStep_emit R s printCallers (frameSkipper R s) _ i ha hn hs]
    simp only [List.length_append, List.length_singleton]
    split
    · simp; omega
    · simp
/-! ## Claims about `printStack`: ordering -/

/-- With `relativeStackOnly = false`, a classifier that skips nothing, no two
adjacent frames of one name and a named outermost frame, every iteration
prints its frame. -/
theorem printLoop_prints_all (R : Runtime) (s printCallers : stack) (sk : GoString → Bool)
    (hskip : ∀ i, i < s.length → sk (frame R s i).File = false)
    (hadj : ∀ i, i + 1 < s.length → (frame R s i).Func ≠ (frame R s (i + 1)).Func)
    (hout : (frame R s 0).Func ≠ []) :
    ∀ n, n ≤ s.length →
      printLoop R s printCallers sk false n =
        { prev := if n = 0 then [] else (frame R s (n - 1)).Func,
          diff := true,
          lines := (List.range n).map (fun i =>
            renderFrame (frame R s i) (if i = 0 then [] else (frame R s (i - 1)).Func)),
          skippingFrames := 0 } := by
  intro n
  induction n with
  | zero => intro _; rfl
  | succ n ih =>
    intro hn
    have hst := ih (by omega)
    have hsucc : printLoop R s printCallers sk false (n + 1) =
        printStep R s printCallers sk (printLoop R s printCallers sk false n) n := rfl
    rw [hsucc, hst]
    rw [printStep_emit]
    · simp [List.range_succ]
    · simp
    · simp only
      cases n with
      | zero => simpa using hout
      | succ m =>
        have := hadj m (by omega)
        simpa using fun h => this h.symm
    · exact hskip n (by omega)

theorem getD_mem_of_lt (s : stack) (j : Nat) (h : j < s.length) : s.getD j 0 ∈ s := by
  rw [List.getD_eq_getElem?_getD, List.getElem?_eq_getElem h]
  exact List.getElem_mem h

/-- The slice `lines` when every frame is printed: with
`relativeStackOnly = false`, a classifier that skips no frame, no two
adjacent frames of one name and a named outermost frame, `lines` has
`len(s)` entries and, read from its last entry, the `j`-th is the line of
`s[j]`. -/
theorem printLines_ordering (R : Runtime) (chain : List Nat) (s : stack) (b : GoString)
    (hne : s ≠ [])
    (hskip : ∀ x ∈ s, frameSkipper R s (R.resolve x).File = false)
    (hadj : ∀ j, j + 1 < s.length →
      (R.resolve (s.getD j 0)).Func ≠ (R.resolve (s.getD (j + 1) 0)).Func)
    (hout : (R.resolve (s.getD (s.length - 1) 0)).Func ≠ []) :
    printStack R chain s b false =
        writeLines R (printLines R (callers chain 0) s false) b ∧
      (printLines R (callers chain 0) s false).length = s.length ∧
      ∀ j, j < s.length →
        (printLines R (callers chain 0) s false).reverse[j]? =
          some (renderFrame (R.resolve (s.getD j 0))
            (if j + 1 < s.length then (R.resolve (s.getD (j + 1) 0)).Func else [])) := by
  have hpos : 0 < s.length := List.length_pos.mpr hne
  have hall := printLoop_prints_all R s (callers chain 0) (frameSkipper R s)
    (by
      intro i hi
      rw [frame_eq R s i hi]
      exact hskip _ (getD_mem_of_lt s _ (by omega)))
    (by
      intro i hi
      rw [frame_eq R s i (by omega), frame_eq R s (i + 1) hi]
      have h := hadj (s.length - 1 - (i + 1)) (by omega)
      have e : s.length - 1 - (i + 1) + 1 = s.length - 1 - i := by omega
      rw [e] at h
      exact fun h2 => h h2.symm)
    (by
      rw [frame_eq R s 0 hpos]
      exact hout)
    s.length (Nat.le_refl _)
  have hlines : printLines R (callers chain 0) s false =
      (List.range s.length).map (fun i =>
        renderFrame (frame R s i) (if i = 0 then [] else (frame R s (i - 1)).Func)) := by
    unfold printLines walk
    rw [hall]
  refine ⟨?_, ?_, ?_⟩
  · unfold printStack
    rw [if_neg (by omega)]
  · rw [hlines]; simp
  · intro j hj
    rw [hlines, List.getElem?_reverse (by simpa using hj)]
    simp only [List.length_map, List.length_range]
    rw [List.getElem?_map, List.getElem?_range (by omega)]
    simp only [Option.map_some']
    rw [frame_eq R s _ (by omega)]
    have e1 : s.length - 1 - (s.length - 1 - j) = j := by omega
    rw [e1]
    by_cases hlast : j + 1 < s.length
    · rw [if_pos hlast, if_neg (by omega), frame_eq R s _ (by omega)]
      have e2 : s.length - 1 - (s.length - 1 - j - 1) = j + 1 := by omega
      rw [e2]
    · rw [if_neg hlast, if_pos (by omega)]

/-- Ordering when every frame is printed, for the iterator of one frame per
program counter: for a non-empty stack `s` printed with
`relativeStackOnly = false`, when the classifier skips no frame, no two
adjacent frames share a function name and the outermost frame (last index)
has a non-empty function name, `printStack` writes into the buffer, in this
order, the lines rendered from `s[0]`, `s[1]`, ..., `s[len(s)-1]` (each name
compressed against that of the next outer frame), each behind
`pad(b, Separator)`: innermost first, outermost last, `len(s)` lines. -/
theorem printStack_ordering (R : Runtime) (chain : List Nat) (s : stack) (b : GoString)
    (hne : s ≠ [])
    (hskip : ∀ x ∈ s, frameSkipper R s (R.resolve x).File = false)
    (hadj : ∀ j, j + 1 < s.length →
      (R.resolve (s.getD j 0)).Func ≠ (R.resolve (s.getD (j + 1) 0)).Func)
    (hout : (R.resolve (s.getD (s.length - 1) 0)).Func ≠ []) :
    printStack R chain s b false =
        ((List.range s.length).map (fun j =>
          renderFrame (R.resolve (s.getD j 0))
            (if j + 1 < s.length then (R.resolve (s.getD (j + 1) 0)).Func else []))).foldl
          (fun buf line => pad buf R.Separator ++ line) b ∧
      (printLines R (callers chain 0) s false).length = s.length ∧
      ∀ j, j < s.length →
        (printLines R (callers chain 0) s false).reverse[j]? =
          some (renderFrame (R.resolve (s.getD j 0))
            (if j + 1 < s.length then (R.resolve (s.getD (j + 1) 0)).Func else [])) := by
  obtain ⟨h1, h2, h3⟩ := printLines_ordering R chain s b hne hskip hadj hout
  refine ⟨?_, h2, h3⟩
  have hrev : (printLines R (callers chain 0) s false).reverse =
      (List.range s.length).map (fun j =>
        renderFrame (R.resolve (s.getD j 0))
          (if j + 1 < s.length then (R.resolve (s.getD (j + 1) 0)).Func else [])) := by
    apply List.ext_getElem?
    intro j
    rcases Nat.lt_or_ge j s.length with hj | hj
    · rw [h3 j hj, List.getElem?_map, List.getElem?_range hj]
      rfl
    · rw [List.getElem?_eq_none (by simpa [h2] using hj),
        List.getElem?_eq_none (by simpa using hj)]
  rw [h1]
  unfold writeLines
  rw [hrev]

theorem printStack_ordering_witness :
    printStack demoRuntime [] [4, 3, 2, 1] [] false =
        ("app/capture.go:40: ...capturePoint" ++ ":\n\t" ++
          "app/validate.go:30: ...validate" ++ ":\n\t" ++
          "app/handle.go:20: ...handle" ++ ":\n\t" ++
          "app/main.go:10: main.main").toList ∧
      printStack demoRuntime [] [4, 3, 2, 1] [] false =
        ((List.range [4, 3, 2, 1].length).map (fun j =>
          renderFrame (demoRuntime.resolve ([4, 3, 2, 1].getD j 0))
            (if j + 1 < [4, 3, 2, 1].length then
              (demoRuntime.resolve ([4, 3, 2, 1].getD (j + 1) 0)).Func else []))).foldl
          (fun buf line => pad buf demoRuntime.Separator ++ line) [] :=
  ⟨by decide,
    (printStack_ordering demoRuntime [] [4, 3, 2, 1] [] (by decide) (by decide)
      (by
        intro j hj
        have hj3 : j < 3 := by simp at hj; omega
        interval_cases j <;> decide)
      (by decide)).1⟩

/-- C4 (ordering) fails on the code at a stack whose outermost frame has no
function name: the stack `[2, 13]` (`main.handle` called from a frame
without `*Func`, whose `Func.Name()` is empty) has two frames, the
classifier skips neither and their names differ, so the claim has two lines
written, the line of `main.handle` first and that of the outermost frame
last; the code writes the line of `main.handle` only, since the empty name
equals the initial value of `prev` and the repeat rule of lines 91-93 drops
the frame although no function has been printed before it. -/
theorem printStack_ordering_unnamed_outermost :
    (∀ x ∈ [2, 13], frameSkipper demoRuntime [2, 13] (demoRuntime.resolve x).File = false) ∧
      (demoRuntime.resolve 2).Func ≠ (demoRuntime.resolve 13).Func ∧
      (demoRuntime.resolve 13).Func = [] ∧
      printLines demoRuntime (callers [] 0) [2, 13] false =
        ["app/handle.go:20: main.handle".toList] ∧
      (printLines demoRuntime (callers [] 0) [2, 13] false).length ≠ [2, 13].length ∧
      printStack demoRuntime [] [2, 13] [] false = "app/handle.go:20: main.handle".toList := by
  decide

/-! ## Claims about `printStack`: name compression and the classifier -/

/-- The cut of the trim loop: the stripped part `name[0 .. trim)` lies within
`name`; when it is not empty it ends exactly on a separator of `name` and
the text before that separator, `name[0 .. trim-1)`, is a literal prefix of
`prev`; no separator of `name` at or behind `trim` is preceded by a prefix of
`prev`.  The line of a frame named `name` shows `name[trim:]`. -/
theorem trim_cut (prev name : GoString) :
    trimOf prev name ≤ name.length ∧
      (trimOf prev name = 0 ∨
        ∃ c, 0 < trimOf prev name ∧ name[trimOf prev name - 1]? = some c ∧
          c ∈ separators ∧ name.take (trimOf prev name - 1) <+: prev) ∧
      (∀ (p : Nat) (c : Char), trimOf prev name ≤ p → name[p]? = some c →
        c ∈ separators → ¬ name.take p <+: prev) ∧
      ∀ f : Frame, f.Func = name →
        renderFrame f prev =
          frameLine f.File f.Line (if trimOf prev name = 0 then [] else ['.', '.', '.'])
            (name.drop (trimOf prev name)) := by
  refine ⟨trimOf_le prev name, trimOf_shape prev name, ?_, ?_⟩
  · intro p c hp hget hc
    exact trimOf_maximal prev name p c hp hget hc
  · intro f hf
    subst hf
    rfl

/-- C5 (name compression prefix) fails on the code: when `ab.x` is printed
after `abc.d`, the loop of lines 107-116 finds `ab`, the text before the
first separator of `name`, to be a prefix of `prev` and skips the separator
without comparing it, so `trim = 3` and the line shows `...x`; the stripped
part `ab.` is not a prefix of `abc.d` and the cut falls inside the token
`abc` of `prev`.  Likewise `io.Copy` after `io/ioutil.ReadAll` is shown as
`...Copy`. -/
theorem trim_cut_inside_token :
    trimOf "abc.d".toList "ab.x".toList = 3 ∧
      "ab.x".toList.take 3 = "ab.".toList ∧
      "ab.".toList.isPrefixOf "abc.d".toList = false ∧
      printLines tokenRuntime [] [2, 1] false =
        ["abc/d.go:1: abc.d".toList, "ab/x.go:2: ...x".toList] ∧
      trimOf "io/ioutil.ReadAll".toList "io.Copy".toList = 3 ∧
      "io.".toList.isPrefixOf "io/ioutil.ReadAll".toList = false ∧
      printLines tokenRuntime [] [4, 3] false =
        ["io/ioutil/ioutil.go:3: io/ioutil.ReadAll".toList, "io/io.go:4: ...Copy".toList] := by
  decide

theorem lastFrame_cons (R : Runtime) (x : Nat) (rest : stack) :
    lastFrame R (x :: rest) = R.resolve x := by
  unfold lastFrame
  rw [frame_eq R (x :: rest) _ (by simp)]
  simp

/-- C6 (seed of the classifier), with the innermost frame in place of the
outermost: for a non-empty stack `x :: rest` the classifier used by
`printStack` is built from the source file of `frame(s, len(s)-1)`, which is
the frame of `s[0] = x`, the innermost (capture-site) frame. -/
theorem frameSkipper_seed (R : Runtime) (chain : List Nat) (x : Nat) (rest : stack)
    (b : GoString) (rel : Bool) :
    lastFrame R (x :: rest) = R.resolve x ∧
      frameSkipper R (x :: rest) = R.NewFrameSkipper (R.resolve x).File ∧
      printStack R chain (x :: rest) b rel =
        writeLines R
          (printLoop R (x :: rest) (callers chain 0) (R.NewFrameSkipper (R.resolve x).File)
            rel (rest.length + 1)).lines b := by
  have h1 := lastFrame_cons R x rest
  have h2 : frameSkipper R (x :: rest) = R.NewFrameSkipper (R.resolve x).File := by
    unfold frameSkipper; rw [h1]
  refine ⟨h1, h2, ?_⟩
  unfold printStack printLines walk
  rw [h2]
  simp

/-- C6 as stated fails: on the stack `[5, 1]` (`lib.Each` called from
`main.main`) the classifier is seeded with the file of `lib.Each`, the
innermost frame, not with that of the outermost frame `main.main`; with a
classifier that keeps the directory of its seed the two seeds give
different lines. -/
theorem frameSkipper_seed_not_outermost :
    (lastFrame sameDirRuntime [5, 1]).File = "vendor/lib/each.go".toList ∧
      (sameDirRuntime.resolve ([5, 1].getLast (by decide))).File = "app/main.go".toList ∧
      printLines sameDirRuntime [] [5, 1] false =
        ["<1 frames omitted>".toList, "vendor/lib/each.go:50: lib.Each".toList] ∧
      (printLoop sameDirRuntime [5, 1] []
        (sameDirRuntime.NewFrameSkipper (sameDirRuntime.resolve 1).File) false 2).lines =
        ["app/main.go:10: main.main".toList] := by
  decide

/-! ## Lemmas: the two outcomes of name compression -/

/-- A shared prefix that ends on a separator, followed by a last token, is
stripped whole. -/
theorem trimOf_shared (P a b : GoString) (c : Char) (hP : P.getLast? = some c)
    (hc : c ∈ separators) (hb : ∀ x ∈ b, x ∉ separators) :
    trimOf (P ++ a) (P ++ b) = P.length := by
  obtain ⟨P0, rfl⟩ := List.getLast?_eq_some_iff.mp hP
  have hlen : (P0 ++ [c]).length = P0.length + 1 := by simp
  have hlow : P0.length + 1 ≤ trimOf (P0 ++ [c] ++ a) (P0 ++ [c] ++ b) := by
    by_contra hlt
    refine trimOf_maximal (P0 ++ [c] ++ a) (P0 ++ [c] ++ b) P0.length c (by omega) ?_ hc ?_
    · rw [List.append_assoc, List.getElem?_append_right (Nat.le_refl _)]
      simp
    · rw [List.append_assoc, List.take_left, List.append_assoc]
      exact List.prefix_append _ _
  have hhigh : trimOf (P0 ++ [c] ++ a) (P0 ++ [c] ++ b) ≤ P0.length + 1 := by
    by_contra hgt
    rcases trimOf_shape (P0 ++ [c] ++ a) (P0 ++ [c] ++ b) with h0 | ⟨c2, _, hget, hc2, _⟩
    · omega
    · rw [List.getElem?_append_right (by rw [hlen]; omega)] at hget
      exact hb c2 (List.getElem?_mem hget) hc2
  rw [hlen]
  omega

/-- A first token that is not a prefix of `prev` leaves the name whole. -/
theorem trimOf_unshared (prev name : GoString)
    (h : ¬ name.takeWhile (fun x => decide (x ∉ separators)) <+: prev) :
    trimOf prev name = 0 := by
  rcases trimOf_shape prev name with h0 | ⟨c, hpos, hget, hc, hpre⟩
  · exact h0
  · exfalso
    apply h
    have htok : name.takeWhile (fun x => decide (x ∉ separators)) <+: name :=
      List.takeWhile_prefix _
    have hle : (name.takeWhile (fun x => decide (x ∉ separators))).length ≤
        trimOf prev name - 1 := by
      by_contra hlt
      obtain ⟨r, hr⟩ := htok
      have hget2 : (name.takeWhile (fun x => decide (x ∉ separators)) ++ r)[
          trimOf prev name - 1]? = some c := by
        rw [hr]; exact hget
      rw [List.getElem?_append_left (by omega)] at hget2
      have := List.mem_takeWhile_imp (List.getElem?_mem hget2)
      simp at this
      exact this hc
    have h1 : name.takeWhile (fun x => decide (x ∉ separators)) =
        name.take (name.takeWhile (fun x => decide (x ∉ separators))).length :=
      List.prefix_iff_eq_take.mp htok
    rw [h1]
    exact (List.take_prefix_take_left name hle).trans hpre

/-! ## Claims about `printStack`: skipped runs, repeats, compression, emptiness -/

/-- Behind a printed frame, frames that the classifier skips and that do
not carry the name of that frame are counted, one by one. -/
theorem printLoop_skip_run (R : Runtime) (s printCallers : stack) (sk : GoString → Bool)
    (rel : Bool) (p N : Nat)
    (hp : (printLoop R s printCallers sk rel p).lines.length <
      (printLoop R s printCallers sk rel (p + 1)).lines.length)
    (hrun : ∀ q, p < q → q ≤ p + N →
      sk (frame R s q).File = true ∧ (frame R s q).Func ≠ (frame R s p).Func) :
    ∀ k, k ≤ N →
      (printLoop R s printCallers sk rel (p + 1 + k)).lines =
          (printLoop R s printCallers sk rel (p + 1)).lines ∧
        (printLoop R s printCallers sk rel (p + 1 + k)).prev = (frame R s p).Func ∧
        (printLoop R s printCallers sk rel (p + 1 + k)).skippingFrames = k := by
  intro k
  induction k with
  | zero =>
    intro _
    have h := (printLoop_appended R s printCallers sk rel p hp).2
    refine ⟨rfl, ?_, ?_⟩
    · show (printLoop R s printCallers sk rel (p + 1)).prev = _
      rw [h]
    · show (printLoop R s printCallers sk rel (p + 1)).skippingFrames = _
      rw [h]
  | succ k ih =>
    intro hk
    obtain ⟨hl, hprev, hcount⟩ := ih (by omega)
    have hsettled := printLoop_settled_after R s printCallers sk rel p hp (p + 1 + k) (by omega)
    obtain ⟨hskip, hname⟩ := hrun (p + 1 + k) (by omega) (by omega)
    have hstep : printLoop R s printCallers sk rel (p + 1 + (k + 1)) =
        printStep R s printCallers sk (printLoop R s printCallers sk rel (p + 1 + k))
          (p + 1 + k) := rfl
    rw [hstep, printStep_skip R s printCallers sk _ _ ?_ (by rw [hprev]; exact hname) hskip]
    · exact ⟨hl, hprev, by simp [hcount]⟩
    · rintro ⟨hd, hi, _⟩
      rcases hsettled with h | h
      · rw [hd] at h; exact Bool.noConfusion h
      · omega

/-- C7 (skip-run collapsing), for skipped frames not named like the kept
frame before them: when the frame at walk position `p` and the frame at
`p+N+1` are both printed, `N ≥ 1`, and each of the `N` frames between them is
skipped by the classifier and does not carry the function name of the frame
at `p`, the loop appends, right behind the line of the frame at `p`, exactly
the line `<N frames omitted>` and then the line of the frame at `p+N+1`, and
nothing for the skipped frames; these lines stay in the final `lines`. -/
theorem skip_run_collapsing (R : Runtime) (printCallers s : stack) (rel : Bool) (N p : Nat)
    (hN : 1 ≤ N) (hlen : p + N + 1 < s.length)
    (hp : emitted R printCallers s rel p)
    (hq : emitted R printCallers s rel (p + N + 1))
    (hrun : ∀ q, p < q → q ≤ p + N →
      frameSkipper R s (frame R s q).File = true ∧
        (frame R s q).Func ≠ (frame R s p).Func) :
    (walk R printCallers s rel (p + 1)).lines.getLast? =
        some (renderFrame (frame R s p) (walk R printCallers s rel p).prev) ∧
      (walk R printCallers s rel (p + N + 2)).lines =
        (walk R printCallers s rel (p + 1)).lines ++
          [omittedLine N, renderFrame (frame R s (p + N + 1)) (frame R s p).Func] ∧
      (walk R printCallers s rel (p + N + 2)).lines <+: printLines R printCallers s rel := by
  unfold emitted walk at hp hq
  unfold printLines walk
  refine ⟨?_, ?_, ?_⟩
  · rw [(printLoop_appended R s printCallers (frameSkipper R s) rel p hp).2]
    simp
  · obtain ⟨hl, hprev, hcount⟩ :=
      printLoop_skip_run R s printCallers (frameSkipper R s) rel p N hp hrun N (Nat.le_refl _)
    have e : p + 1 + N = p + N + 1 := by omega
    rw [e] at hl hprev hcount
    rw [(printLoop_appended R s printCallers (frameSkipper R s) rel (p + N + 1) hq).2]
    simp only
    rw [hl, hprev, hcount, if_pos (by omega)]
    simp
  · exact printLoop_lines_le R s printCallers (frameSkipper R s) rel _ _ (by omega)

theorem skip_run_collapsing_witness :
    (walk demoRuntime [] [2, 7, 6, 5, 1] false 1).lines.getLast? =
        some (renderFrame (frame demoRuntime [2, 7, 6, 5, 1] 0)
          (walk demoRuntime [] [2, 7, 6, 5, 1] false 0).prev) ∧
      (walk demoRuntime [] [2, 7, 6, 5, 1] false (0 + 3 + 2)).lines =
        (walk demoRuntime [] [2, 7, 6, 5, 1] false (0 + 1)).lines ++
          [omittedLine 3, renderFrame (frame demoRuntime [2, 7, 6, 5, 1] (0 + 3 + 1))
            (frame demoRuntime [2, 7, 6, 5, 1] 0).Func] ∧
      (walk demoRuntime [] [2, 7, 6, 5, 1] false (0 + 3 + 2)).lines <+:
        printLines demoRuntime [] [2, 7, 6, 5, 1] false :=
  skip_run_collapsing demoRuntime [] [2, 7, 6, 5, 1] false 3 0 (by decide) (by decide)
    (by decide) (by decide)
    (by
      intro q h1 h2
      have h3 : q < 4 := by omega
      interval_cases q <;> decide)

/-- C7 as stated fails: on the stack `[3, 12, 2]` the frames `main.handle`
(walk position 0) and `main.validate` (position 2) are printed and the one
frame between them is skipped by the classifier, yet no `<1 frames omitted>`
line is written: that frame is also named `main.handle`, so the repeat rule
drops it before the classifier is asked. -/
theorem skip_run_not_counted :
    emitted demoRuntime [] [3, 12, 2] false 0 ∧
      emitted demoRuntime [] [3, 12, 2] false 2 ∧
      frameSkipper demoRuntime [3, 12, 2] (frame demoRuntime [3, 12, 2] 1).File = true ∧
      printLines demoRuntime [] [3, 12, 2] false =
        ["app/handle.go:20: main.handle".toList, "app/validate.go:30: ...validate".toList] ∧
      omittedLine 1 ∉ printLines demoRuntime [] [3, 12, 2] false := by
  decide

/-- C8 (repeat suppression): two frames printed one after the other never
have the same function name; in particular, of two adjacent frames of the
stack that share a function name at most one is printed. -/
theorem repeat_suppression (R : Runtime) (printCallers s : stack) (rel : Bool) :
    (∀ p q, consecutivelyEmitted R printCallers s rel p q →
        (frame R s p).Func ≠ (frame R s q).Func) ∧
      ∀ i, (frame R s i).Func = (frame R s (i + 1)).Func →
        ¬ (emitted R printCallers s rel i ∧ emitted R printCallers s rel (i + 1)) := by
  have key : ∀ p q, consecutivelyEmitted R printCallers s rel p q →
      (frame R s p).Func ≠ (frame R s q).Func := by
    rintro p q ⟨hpq, hp, hq, hnone⟩
    unfold emitted walk at hp hq hnone
    have hprev := printLoop_prev_between R s printCallers (frameSkipper R s) rel p hp q hpq
      (fun r h1 h2 => hnone r h2 h1)
    have hne := (printLoop_appended R s printCallers (frameSkipper R s) rel q hq).1.2.1
    rw [hprev] at hne
    exact fun h => hne h.symm
  refine ⟨key, ?_⟩
  rintro i hname ⟨hi, hi1⟩
  exact key i (i + 1) ⟨by omega, hi, hi1, fun r h1 h2 => by omega⟩ hname

theorem repeat_suppression_witness :
    consecutivelyEmitted demoRuntime [] [3, 12, 2] false 0 2 ∧
      (frame demoRuntime [3, 12, 2] 0).Func ≠ (frame demoRuntime [3, 12, 2] 2).Func ∧
      (frame demoRuntime [3, 12, 2] 0).Func = (frame demoRuntime [3, 12, 2] (0 + 1)).Func ∧
      ¬ (emitted demoRuntime [] [3, 12, 2] false 0 ∧
        emitted demoRuntime [] [3, 12, 2] false (0 + 1)) :=
  ⟨by decide,
    (repeat_suppression demoRuntime [] [3, 12, 2] false).1 0 2 (by decide),
    by decide,
    (repeat_suppression demoRuntime [] [3, 12, 2] false).2 0 (by decide)⟩

/-- C9 (compression rendering): for two frames printed one after the other,
at walk positions `p < q`: if their names are `P ++ a` and `P ++ b`, where
`P` ends in a separator and `b` is free of separators, the line of the second is
`file:line: ...` followed by `b`; and if the first separator-delimited token
of the second name is not a prefix of the first name, the line is
`file:line: ` followed by the whole name, without ellipsis.  The line stays
in the final `lines`. -/
theorem compression_rendering (R : Runtime) (printCallers s : stack) (rel : Bool) (p q : Nat)
    (hq : q < s.length) (hc : consecutivelyEmitted R printCallers s rel p q) :
    (∀ (P a b : GoString) (c : Char),
        (frame R s p).Func = P ++ a → (frame R s q).Func = P ++ b →
        P.getLast? = some c → c ∈ separators → (∀ x ∈ b, x ∉ separators) →
        (walk R printCallers s rel (q + 1)).lines.getLast? =
          some ((frame R s q).File ++ [':'] ++ decimal (frame R s q).Line ++ [':', ' '] ++
            ['.', '.', '.'] ++ b)) ∧
      (¬ (frame R s q).Func.takeWhile (fun x => decide (x ∉ separators)) <+:
            (frame R s p).Func →
        (walk R printCallers s rel (q + 1)).lines.getLast? =
          some ((frame R s q).File ++ [':'] ++ decimal (frame R s q).Line ++ [':', ' '] ++
            (frame R s q).Func)) ∧
      (walk R printCallers s rel (q + 1)).lines <+: printLines R printCallers s rel := by
  obtain ⟨hpq, hp, hq2, hnone⟩ := hc
  unfold emitted walk at hp hq2 hnone
  unfold printLines walk
  have hprev := printLoop_prev_between R s printCallers (frameSkipper R s) rel p hp q hpq
    (fun r h1 h2 => hnone r h2 h1)
  have hstate := (printLoop_appended R s printCallers (frameSkipper R s) rel q hq2).2
  have hlast : (printLoop R s printCallers (frameSkipper R s) rel (q + 1)).lines.getLast? =
      some (renderFrame (frame R s q) (frame R s p).Func) := by
    rw [hstate, ← hprev]
    simp
  refine ⟨?_, ?_, ?_⟩
  · intro P a b c hnp hnq hP hcsep hb
    rw [hlast]
    have ht := trimOf_shared P a b c hP hcsep hb
    have hPpos : P.length ≠ 0 := by
      obtain ⟨P0, rfl⟩ := List.getLast?_eq_some_iff.mp hP
      simp
    simp only [renderFrame, frameLine, hnp, hnq, ht, if_neg hPpos, List.drop_left]
  · intro htok
    rw [hlast]
    have ht := trimOf_unshared (frame R s p).Func (frame R s q).Func htok
    simp [renderFrame, frameLine, ht]
  · exact printLoop_lines_le R s printCallers (frameSkipper R s) rel _ _ (by omega)

theorem compression_rendering_witness :
    (walk demoRuntime [] [9, 8] false (1 + 1)).lines.getLast? =
        some ((frame demoRuntime [9, 8] 1).File ++ [':'] ++
          decimal (frame demoRuntime [9, 8] 1).Line ++ [':', ' '] ++ ['.', '.', '.'] ++
          "Bar".toList) ∧
      (walk demoRuntime [] [10, 8] false (1 + 1)).lines.getLast? =
        some ((frame demoRuntime [10, 8] 1).File ++ [':'] ++
          decimal (frame demoRuntime [10, 8] 1).Line ++ [':', ' '] ++
          (frame demoRuntime [10, 8] 1).Func) :=
  ⟨(compression_rendering demoRuntime [] [9, 8] false 0 1 (by decide) (by decide)).1
      "pkg/sub.".toList "Foo".toList "Bar".toList '.' (by decide) (by decide) (by decide)
      (by decide) (by decide),
    (compression_rendering demoRuntime [] [10, 8] false 0 1 (by decide) (by decide)).2.1
      (by decide)⟩

/-- C10 (format emptiness): on an empty (or nil) stack `printStack` writes
nothing, whatever the buffer and the mode; into an empty buffer the result
is the empty string. -/
theorem printStack_empty (R : Runtime) (chain : List Nat) (b : GoString) (rel : Bool) :
    printStack R chain [] b rel = b ∧ printStack R chain [] [] rel = [] := by
  exact ⟨rfl, rfl⟩

/-! ## Claims about `frame` and `callers` -/

/-- C11 (frame resolver addressing): with one frame per program counter, for
every stack `s` and position `n < len(s)`, `frame(s, n)` is the frame
resolved from `s[len(s)-1-n]`; position 0 is the outermost frame (last
index) and position `len(s)-1` the innermost frame (index 0). -/
theorem frame_addressing (R : Runtime) (s : stack) (n : Nat) (h : n < s.length) :
    frame R s n = R.resolve (s.getD (s.length - 1 - n) 0) ∧
      s.getLast?.map R.resolve = some (frame R s 0) ∧
      s.head?.map R.resolve = some (frame R s (s.length - 1)) := by
  refine ⟨frame_eq R s n h, ?_, ?_⟩
  · rw [frame_eq R s 0 (by omega)]
    have hne : s ≠ [] := by
      intro h0; rw [h0] at h; simp at h
    rw [List.getLast?_eq_getLast s hne, List.getLast_eq_getElem]
    simp only [Option.map_some', Nat.sub_zero]
    rw [List.getD_eq_getElem?_getD, List.getElem?_eq_getElem (by omega)]
    simp
  · rw [frame_eq R s (s.length - 1) (by omega)]
    cases s with
    | nil => simp at h
    | cons x rest => simp

theorem frame_addressing_witness :
    frame demoRuntime [4, 3, 2, 1] 1 =
        demoRuntime.resolve ([4, 3, 2, 1].getD ([4, 3, 2, 1].length - 1 - 1) 0) ∧
      [4, 3, 2, 1].getLast?.map demoRuntime.resolve = some (frame demoRuntime [4, 3, 2, 1] 0) ∧
      [4, 3, 2, 1].head?.map demoRuntime.resolve =
        some (frame demoRuntime [4, 3, 2, 1] ([4, 3, 2, 1].length - 1)) :=
  frame_addressing demoRuntime [4, 3, 2, 1] 1 (by decide)

/-- C13 (capture skip semantics): on a call chain given as return addresses,
innermost first, whose first three entries belong to `runtime.Callers`
itself, to the call of `runtime.Callers` inside `callers` and to the call of
`callers`, the stack returned by `callers(skip)` leaves out those three
entries and exactly `skip` further ones, and is what follows (up to the depth
ceiling); `callers(0)` begins with the call site of the function that
invoked `callers`. -/
theorem callers_skip (c0 c1 c2 : Nat) (rest : List Nat) (skip : Nat) :
    callers (c0 :: c1 :: c2 :: rest) skip = (rest.drop skip).take depth ∧
      callers (c0 :: c1 :: c2 :: rest) skip <+: rest.drop skip ∧
      (callers (c0 :: c1 :: c2 :: rest) 0).head? = rest.head? := by
  have h : callers (c0 :: c1 :: c2 :: rest) skip = (rest.drop skip).take depth := by
    simp [callers, runtimeCallers, Nat.add_comm 3 skip]
  refine ⟨h, ?_, ?_⟩
  · rw [h]; exact List.take_prefix _ _
  · cases rest <;> simp [callers, runtimeCallers, depth]

/-- C14 (capture depth ceiling): the stack returned by `callers(skip)` has at
most 64 entries and is a prefix of the call chain behind the skipped
entries, so that only entries at the outermost end are ever cut; a chain
deeper than 64 gives its 64 innermost entries, a shallower one is returned
whole. -/
theorem callers_depth (chain : List Nat) (skip : Nat) :
    (callers chain skip).length ≤ 64 ∧
      callers chain skip <+: chain.drop (3 + skip) ∧
      (64 < (chain.drop (3 + skip)).length →
        callers chain skip = (chain.drop (3 + skip)).take 64 ∧
          (callers chain skip).length = 64) ∧
      ((chain.drop (3 + skip)).length ≤ 64 →
        callers chain skip = chain.drop (3 + skip)) := by
  refine ⟨?_, ?_, ?_, ?_⟩
  · simp only [callers, runtimeCallers, depth, List.length_take]
    omega
  · exact List.take_prefix _ _
  · intro h
    refine ⟨rfl, ?_⟩
    simp only [callers, runtimeCallers, depth, List.length_take]
    omega
  · intro h
    simp only [callers, runtimeCallers, depth]
    exact List.take_of_length_le h

theorem callers_depth_witness :
    (callers (List.range 100) 2).length = 64 ∧
      callers (List.range 100) 2 = (List.range 100 |>.drop 5).take 64 ∧
      (callers (List.range 100) 2).head? = some 5 ∧
      (callers (List.range 100) 2).getLast? = some 68 ∧
      callers (List.range 20) 2 = (List.range 20).drop 5 :=
  ⟨((callers_depth (List.range 100) 2).2.2.1 (by decide)).2,
    ((callers_depth (List.range 100) 2).2.2.1 (by decide)).1,
    by decide, by decide,
    (callers_depth (List.range 20) 2).2.2.2 (by decide)⟩

/-! ## Claims about `printStack`: the formatter's own call path, totality -/

theorem printStep_diff_true (R : Runtime) (s pc pc2 : stack) (sk : GoString → Bool)
    (st : PrintState) (i : Nat) (h : st.diff = true) :
    printStep R s pc sk st i = printStep R s pc2 sk st i ∧
      (printStep R s pc sk st i).diff = true := by
  unfold printStep
  simp only [h, Bool.not_true, Bool.false_and, Bool.false_eq_true, false_and, if_false]
  refine ⟨trivial, ?_⟩
  split
  · rfl
  · split <;> rfl

theorem printLoop_independent (R : Runtime) (s pc pc2 : stack) (sk : GoString → Bool) :
    ∀ n, printLoop R s pc sk false n = printLoop R s pc2 sk false n ∧
      (printLoop R s pc sk false n).diff = true := by
  intro n
  induction n with
  | zero => exact ⟨rfl, rfl⟩
  | succ n ih =>
    have h1 : printLoop R s pc sk false (n + 1) =
        printStep R s pc sk (printLoop R s pc sk false n) n := rfl
    have h2 : printLoop R s pc2 sk false (n + 1) =
        printStep R s pc2 sk (printLoop R s pc2 sk false n) n := rfl
    have h3 := printStep_diff_true R s pc pc2 sk _ n ih.2
    rw [h1, h2, ← ih.1]
    exact h3

/-- C16 (independence from the formatter's own call path): with
`relativeStackOnly = false`, the mode of `GetStack`, the lines and the text
written by `printStack` for a stack `s` are the same for every
`printCallers`, that is, for every call chain of the formatter itself. -/
theorem printStack_independent (R : Runtime) (s : stack) (b : GoString) :
    (∀ pc pc2 : stack, printLines R pc s false = printLines R pc2 s false) ∧
      (∀ chain chain2 : List Nat,
        printStack R chain s b false = printStack R chain2 s b false) ∧
      ∀ (chain chain2 chain3 : List Nat) (d : Nat),
        GetStack R chain chain2 d = GetStack R chain chain3 d := by
  have hl : ∀ (t pc pc2 : stack), printLines R pc t false = printLines R pc2 t false := by
    intro t pc pc2
    unfold printLines walk
    rw [(printLoop_independent R t pc pc2 (frameSkipper R t) t.length).1]
  refine ⟨hl s, ?_, ?_⟩
  · intro chain chain2
    unfold printStack
    simp only
    rw [hl s (callers chain 0) (callers chain2 0)]
  · intro chain chain2 chain3 d
    unfold GetStack printStack
    simp only
    rw [hl _ (callers chain2 0) (callers chain3 0)]

theorem trimLoop_fuel_succ (prev name : GoString) :
    ∀ (fuel trim t : Nat), trimLoop prev name fuel trim = some t →
      trimLoop prev name (fuel + 1) trim = some t := by
  intro fuel
  induction fuel with
  | zero => intro trim t h; simp [trimLoop] at h
  | succ fuel ih =>
    intro trim t h
    rw [trimLoop] at h
    rw [trimLoop]
    split
    · rename_i hlt; rw [if_pos hlt] at h; exact h
    · rename_i hlt
      rw [if_neg hlt] at h
      cases hidx : IndexAny (name.drop trim) separators with
      | none => rw [hidx] at h; exact h
      | some j =>
        rw [hidx] at h
        simp only at h ⊢
        split
        · rename_i h2; rw [if_pos h2] at h; exact h
        · rename_i h2
          rw [if_neg h2] at h
          split
          · rename_i h3; rw [if_pos h3] at h; exact h
          · rename_i h3
            rw [if_neg h3] at h
            exact ih _ _ h

/-- C18 (the name-compression loop is total): for every `prev` and `name`,
empty names and names that begin or end with a separator included, the trim
loop leaves through one of its `break`s within `len(name) + 1` iterations
(more iterations allowed change nothing), no iteration finds `trim` or
`j + trim` beyond `len(name)`, so that `name[trim:]` and `name[:j+trim]` are
in range, and the final `trim` is at most `len(name)`; the same holds from
every intermediate value of `trim` within `name`. -/
theorem trim_loop_total (prev name : GoString) (extra : Nat) :
    trimLoop prev name (name.length + 1 + extra) 0 = some (trimOf prev name) ∧
      trimOf prev name ≤ name.length ∧
      ∀ trim, trim ≤ name.length →
        ∃ t, trimLoop prev name (name.length + 1 + extra) trim = some t ∧
          trim ≤ t ∧ t ≤ name.length := by
  refine ⟨?_, trimOf_le prev name, ?_⟩
  · induction extra with
    | zero => exact trimLoop_terminates prev name
    | succ k ih => exact trimLoop_fuel_succ prev name _ 0 _ ih
  · intro trim htrim
    obtain ⟨t, ht, h1, h2, _⟩ :=
      trimLoop_spec prev name (name.length + 1 + extra) trim htrim (by omega)
    exact ⟨t, ht, h1, h2⟩

theorem trim_loop_total_witness :
    trimLoop "a.b".toList [] 1 0 = some 0 ∧
      trimLoop "a/b.c".toList "/".toList 2 0 = some 1 ∧
      trimLoop ".x".toList ".x.".toList 4 0 = some 3 ∧
      trimLoop "a/b.c".toList "a/b.".toList (4 + 1 + 7) 0 = some 4 :=
  ⟨by decide, by decide, by decide,
    by
      have h := (trim_loop_total "a/b.c".toList "a/b.".toList 7).1
      have e : trimOf "a/b.c".toList "a/b.".toList = 4 := by decide
      rw [e] at h
      exact h⟩

/-! ## Lemmas: the text of markers and frame lines -/

theorem digitChar_ne_colon (k : Nat) (hk : k < 10) : Nat.digitChar k ≠ ':' := by
  interval_cases k <;> decide

theorem toDigitsCore_no_colon :
    ∀ (fuel n : Nat) (ds : List Char), ':' ∉ ds → ':' ∉ Nat.toDigitsCore 10 fuel n ds := by
  intro fuel
  induction fuel with
  | zero => intro n ds h; simpa [Nat.toDigitsCore] using h
  | succ fuel ih =>
    intro n ds h
    have hd : ':' ∉ Nat.digitChar (n % 10) :: ds := by
      intro hmem
      rcases List.mem_cons.mp hmem with h1 | h1
      · exact digitChar_ne_colon (n % 10) (Nat.mod_lt _ (by decide)) h1.symm
      · exact h h1
    unfold Nat.toDigitsCore
    simp only
    split
    · exact hd
    · exact ih _ _ hd

theorem decimal_no_colon (n : Nat) : ':' ∉ decimal n := by
  have h := toDigitsCore_no_colon (n + 1) n [] (by simp)
  simpa [decimal, Nat.repr, Nat.toDigits] using h

theorem omittedLine_no_colon (n : Nat) : ':' ∉ omittedLine n := by
  have h := decimal_no_colon n
  simp only [omittedLine, List.mem_append, List.mem_singleton, not_or]
  refine ⟨⟨by decide, h⟩, by decide⟩

/-- A frame line holds a colon and a marker does not: the two are never the
same text. -/
theorem renderFrame_ne_omittedLine (f : Frame) (prev : GoString) (n : Nat) :
    renderFrame f prev ≠ omittedLine n := by
  intro h
  apply omittedLine_no_colon n
  rw [← h]
  simp [renderFrame, frameLine]

theorem renderFrame_ne_nil (f : Frame) (prev : GoString) : renderFrame f prev ≠ [] := by
  simp [renderFrame, frameLine]

theorem omittedLine_ne_nil (n : Nat) : omittedLine n ≠ [] := by
  simp [omittedLine]

theorem toDigitsCore_length_pos (fuel n : Nat) (ds : List Char) :
    0 < (Nat.toDigitsCore 10 (fuel + 1) n ds).length := by
  unfold Nat.toDigitsCore
  simp only
  split
  · simp
  · rw [Nat.toDigitsCore_lens_eq]; omega

/-- Only the number 0 is written as `0`. -/
theorem decimal_eq_zero (n : Nat) (h : decimal n = decimal 0) : n = 0 := by
  by_contra hn
  have h0 : decimal 0 = ['0'] := by decide
  rw [h0] at h
  have hdec : decimal n = Nat.toDigitsCore 10 (n + 1) n [] := rfl
  rw [hdec] at h
  unfold Nat.toDigitsCore at h
  simp only at h
  split at h
  · rename_i hdiv
    have hlt : n < 10 := by
      rcases Nat.lt_or_ge n 10 with h1 | h1
      · exact h1
      · have := Nat.div_pos h1 (by decide : 0 < 10); omega
    rw [Nat.mod_eq_of_lt hlt] at h
    interval_cases n
    · exact hn rfl
    all_goals exact absurd h (by decide)
  · rename_i hdiv
    have hlen := congrArg List.length h
    rw [Nat.toDigitsCore_lens_eq] at hlen
    cases n with
    | zero => exact hn rfl
    | succ k =>
      have hpos := toDigitsCore_length_pos k ((k + 1) / 10) []
      have h1 : ['0'].length = 1 := rfl
      rw [h1] at hlen
      omega

theorem omittedLine_eq_zero (n : Nat) (h : omittedLine n = omittedLine 0) : n = 0 := by
  apply decimal_eq_zero
  have h2 : ['<'] ++ decimal n ++ " frames omitted>".toList =
      ['<'] ++ decimal 0 ++ " frames omitted>".toList := h
  rw [List.append_assoc, List.append_assoc] at h2
  have h3 := List.append_cancel_left h2
  have hlen := congrArg List.length h3
  simp only [List.length_append] at hlen
  exact List.append_inj_left h3 (by omega)

/-! ## Lemmas: the entries of `lines` -/

/-- The slice `lines` is the text of the entries, in order. -/
theorem lines_eq_entries (R : Runtime) (printCallers s : stack) (rel : Bool) :
    ∀ n, (walk R printCallers s rel n).lines =
      (entries R printCallers s rel n).map (entryText R printCallers s rel) := by
  intro n
  induction n with
  | zero => rfl
  | succ n ih =>
    by_cases he : emitted R printCallers s rel n
    · have hstate := (printLoop_appended R s printCallers (frameSkipper R s) rel n he).2
      have hw : walk R printCallers s rel (n + 1) =
          printLoop R s printCallers (frameSkipper R s) rel (n + 1) := rfl
      have hw0 : printLoop R s printCallers (frameSkipper R s) rel n =
          walk R printCallers s rel n := rfl
      rw [hw, hstate, hw0]
      simp only [entries, if_pos he]
      rw [ih]
      split <;> simp [entryText]
    · have hsame := (printLoop_not_appended R s printCallers (frameSkipper R s) rel n he).1
      have hw : (walk R printCallers s rel (n + 1)).lines =
          (printLoop R s printCallers (frameSkipper R s) rel (n + 1)).lines := rfl
      rw [hw, hsame]
      simp only [entries, if_neg he]
      exact ih

/-- The pending run grows by one at most in an iteration that prints
nothing, and is empty after one that prints. -/
theorem skippingFrames_step (R : Runtime) (printCallers s : stack) (rel : Bool) (n : Nat) :
    (emitted R printCallers s rel n →
        (walk R printCallers s rel (n + 1)).skippingFrames = 0) ∧
      (¬ emitted R printCallers s rel n →
        (walk R printCallers s rel (n + 1)).skippingFrames ≤
          (walk R printCallers s rel n).skippingFrames + 1) := by
  constructor
  · intro he
    have hstate := (printLoop_appended R s printCallers (frameSkipper R s) rel n he).2
    unfold walk
    rw [hstate]
  · intro he
    unfold walk
    rcases printLoop_cases R s printCallers (frameSkipper R s) rel n with h | h | h | h
    · rw [h]; omega
    · rw [h]; simp
    · rw [h]
    · exfalso
      apply he
      unfold emitted walk
      rw [h.2]
      simp only [List.length_append, List.length_singleton]
      split
      · simp; omega
      · simp

/-! ## Claims about `printStack`: markers and the size of the output -/

theorem entries_succ (R : Runtime) (printCallers s : stack) (rel : Bool) (n : Nat) :
    (¬ emitted R printCallers s rel n ∧
        entries R printCallers s rel (n + 1) = entries R printCallers s rel n) ∨
      (emitted R printCallers s rel n ∧
        (walk R printCallers s rel n).skippingFrames = 0 ∧
        entries R printCallers s rel (n + 1) =
          entries R printCallers s rel n ++ [Entry.frameAt n]) ∨
      (emitted R printCallers s rel n ∧
        0 < (walk R printCallers s rel n).skippingFrames ∧
        entries R printCallers s rel (n + 1) =
          entries R printCallers s rel n ++
            [Entry.omitted (walk R printCallers s rel n).skippingFrames, Entry.frameAt n]) := by
  by_cases he : emitted R printCallers s rel n
  · by_cases hk : 0 < (walk R printCallers s rel n).skippingFrames
    · right; right
      refine ⟨he, hk, ?_⟩
      simp [entries, he, hk]
    · right; left
      refine ⟨he, by omega, ?_⟩
      simp [entries, he, hk]
  · left
    exact ⟨he, by simp [entries, he]⟩

/-- The frames seen so far account for every entry: the run lengths of the
markers, the frame lines and the pending run add up to the number of
iterations at most, and every entry counts for one at least. -/
theorem entries_weight (R : Runtime) (printCallers s : stack) (rel : Bool) :
    ∀ n,
      ((entries R printCallers s rel n).map omittedCount).sum +
            (entries R printCallers s rel n).countP isFrameEntry +
            (walk R printCallers s rel n).skippingFrames ≤ n ∧
        (entries R printCallers s rel n).length ≤
          ((entries R printCallers s rel n).map omittedCount).sum +
            (entries R printCallers s rel n).countP isFrameEntry := by
  intro n
  induction n with
  | zero => exact ⟨by simp [entries, walk, printLoop], by simp [entries]⟩
  | succ n ih =>
    obtain ⟨ih1, ih2⟩ := ih
    have hstep := skippingFrames_step R printCallers s rel n
    rcases entries_succ R printCallers s rel n with ⟨he, h⟩ | ⟨he, hk, h⟩ | ⟨he, hk, h⟩
    · rw [h]
      have := hstep.2 he
      exact ⟨by omega, ih2⟩
    · rw [h, hstep.1 he]
      simp only [List.map_append, List.sum_append, List.countP_append, List.length_append,
        List.map_cons, List.map_nil, List.sum_cons, List.sum_nil, List.countP_cons,
        List.countP_nil, List.length_cons, List.length_nil, omittedCount, isFrameEntry]
      simp only [if_true]
      constructor <;> omega
    · rw [h, hstep.1 he]
      simp only [List.map_append, List.sum_append, List.countP_append, List.length_append,
        List.map_cons, List.map_nil, List.sum_cons, List.sum_nil, List.countP_cons,
        List.countP_nil, List.length_cons, List.length_nil, omittedCount, isFrameEntry]
      simp only [if_true, Bool.false_eq_true, if_false]
      constructor <;> omega

/-- C19 (bounded output): for every stack `s`, classifier and mode, the
slice `lines` that `printStack` writes out, markers and frame lines
together, has at most `len(s)` entries, and the `N` of all its markers plus
the number of its frame lines is at most `len(s)`. -/
theorem bounded_output (R : Runtime) (printCallers s : stack) (rel : Bool) :
    (printLines R printCallers s rel).length ≤ s.length ∧
      printLines R printCallers s rel =
        (entries R printCallers s rel s.length).map (entryText R printCallers s rel) ∧
      ((entries R printCallers s rel s.length).map omittedCount).sum +
        (entries R printCallers s rel s.length).countP isFrameEntry ≤ s.length := by
  have hl : printLines R printCallers s rel =
      (entries R printCallers s rel s.length).map (entryText R printCallers s rel) :=
    lines_eq_entries R printCallers s rel s.length
  obtain ⟨h1, h2⟩ := entries_weight R printCallers s rel s.length
  refine ⟨?_, hl, by omega⟩
  rw [hl, List.length_map]
  omega

theorem bounded_output_witness :
    printLines demoRuntime [] [2, 7, 6, 5, 1] false =
        ["app/main.go:10: main.main".toList, "<3 frames omitted>".toList,
          "app/handle.go:20: ...handle".toList] ∧
      entries demoRuntime [] [2, 7, 6, 5, 1] false 5 =
        [Entry.frameAt 0, Entry.omitted 3, Entry.frameAt 4] ∧
      ((entries demoRuntime [] [2, 7, 6, 5, 1] false [2, 7, 6, 5, 1].length).map
          omittedCount).sum +
        (entries demoRuntime [] [2, 7, 6, 5, 1] false [2, 7, 6, 5, 1].length).countP
          isFrameEntry ≤ [2, 7, 6, 5, 1].length :=
  ⟨by decide, by decide, (bounded_output demoRuntime [] [2, 7, 6, 5, 1] false).2.2⟩


theorem getElem?_lt_of_some {α : Type} (l : List α) (k : Nat) (a : α) (h : l[k]? = some a) :
    k < l.length := by
  rcases Nat.lt_or_ge k l.length with h1 | h1
  · exact h1
  · rw [List.getElem?_eq_none h1] at h; exact Option.noConfusion h

/-- In the entries, a marker reports one frame at least and the entry right
behind it is the line of a frame. -/
theorem entries_anchored (R : Runtime) (printCallers s : stack) (rel : Bool) :
    ∀ n k N, (entries R printCallers s rel n)[k]? = some (Entry.omitted N) →
      1 ≤ N ∧ ∃ i, i < n ∧
        (entries R printCallers s rel n)[k + 1]? = some (Entry.frameAt i) := by
  intro n
  induction n with
  | zero => intro k N h; simp [entries] at h
  | succ n ih =>
    intro k N h
    have hold : ∀ tail : List Entry,
        k < (entries R printCallers s rel n).length →
        (entries R printCallers s rel n ++ tail)[k]? = some (Entry.omitted N) →
        1 ≤ N ∧ ∃ i, i < n + 1 ∧
          (entries R printCallers s rel n ++ tail)[k + 1]? = some (Entry.frameAt i) := by
      intro tail hk h2
      rw [List.getElem?_append_left hk] at h2
      obtain ⟨hN, i, hi, hnext⟩ := ih k N h2
      have hk1 := getElem?_lt_of_some _ _ _ hnext
      exact ⟨hN, i, by omega, by rw [List.getElem?_append_left hk1]; exact hnext⟩
    rcases entries_succ R printCallers s rel n with ⟨_, e⟩ | ⟨_, _, e⟩ | ⟨_, hpos, e⟩
    · rw [e] at h ⊢
      obtain ⟨hN, i, hi, hnext⟩ := ih k N h
      exact ⟨hN, i, by omega, hnext⟩
    · rw [e] at h ⊢
      rcases Nat.lt_or_ge k (entries R printCallers s rel n).length with hk | hk
      · exact hold _ hk h
      · exfalso
        rw [List.getElem?_append_right hk] at h
        generalize k - (entries R printCallers s rel n).length = j at h
        cases j with
        | zero => simp at h
        | succ j => simp at h
    · rw [e] at h ⊢
      rcases Nat.lt_or_ge k (entries R printCallers s rel n).length with hk | hk
      · exact hold _ hk h
      · have h2 := h
        rw [List.getElem?_append_right hk] at h2
        have hk1 : (entries R printCallers s rel n).length ≤ k + 1 := by omega
        rw [List.getElem?_append_right hk1]
        have e1 : k + 1 - (entries R printCallers s rel n).length =
            k - (entries R printCallers s rel n).length + 1 := by omega
        rw [e1]
        generalize k - (entries R printCallers s rel n).length = j at h2 ⊢
        cases j with
        | zero =>
          simp at h2
          subst h2
          exact ⟨hpos, n, by omega, by simp⟩
        | succ j =>
          cases j with
          | zero => simp at h2
          | succ j => simp at h2

/-- Iterations whose frame the classifier skips append nothing. -/
theorem lines_unchanged_of_skipped (R : Runtime) (printCallers s : stack) (rel : Bool)
    (p : Nat) :
    ∀ n, p ≤ n →
      (∀ i, p ≤ i → i < n → frameSkipper R s (frame R s i).File = true) →
      (walk R printCallers s rel n).lines = (walk R printCallers s rel p).lines := by
  intro n
  induction n with
  | zero =>
    intro hp _
    have : p = 0 := by omega
    subst this
    rfl
  | succ n ih =>
    intro hp hskip
    rcases Nat.lt_or_ge p (n + 1) with h1 | h1
    · have hprev := ih (by omega) (fun i h2 h3 => hskip i h2 (by omega))
      have hne : ¬ emitted R printCallers s rel n := by
        intro he
        have hsk := (printLoop_appended R s printCallers (frameSkipper R s) rel n he).1.2.2
        rw [hskip n (by omega) (by omega)] at hsk
        exact Bool.noConfusion hsk
      have hsame := (printLoop_not_appended R s printCallers (frameSkipper R s) rel n hne).1
      have hw : (walk R printCallers s rel (n + 1)).lines =
          (printLoop R s printCallers (frameSkipper R s) rel (n + 1)).lines := rfl
      rw [hw, hsame]
      exact hprev
    · have : p = n + 1 := by omega
      subst this
      rfl

/-- C17 (omission markers are anchored to a kept frame): in the slice
`lines` built by `printStack`, every line `<N frames omitted>` has `N ≥ 1`
and is immediately followed, in walk order, by the line of a frame of the
stack; no two markers are adjacent; the last entry, which is the first line
of the output, is never a marker; and frames at the innermost end of the
stack that the classifier skips add no line at all. -/
theorem markers_anchored (R : Runtime) (printCallers s : stack) (rel : Bool) :
    (∀ k N, (printLines R printCallers s rel)[k]? = some (omittedLine N) →
        1 ≤ N ∧ ∃ i, i < s.length ∧
          (printLines R printCallers s rel)[k + 1]? =
            some (renderFrame (frame R s i) (walk R printCallers s rel i).prev)) ∧
      (∀ k N M, ¬ ((printLines R printCallers s rel)[k]? = some (omittedLine N) ∧
        (printLines R printCallers s rel)[k + 1]? = some (omittedLine M))) ∧
      (∀ N, (printLines R printCallers s rel).getLast? ≠ some (omittedLine N)) ∧
      ∀ p, p ≤ s.length →
        (∀ i, p ≤ i → i < s.length → frameSkipper R s (frame R s i).File = true) →
        printLines R printCallers s rel = (walk R printCallers s rel p).lines := by
  have hl : printLines R printCallers s rel =
      (entries R printCallers s rel s.length).map (entryText R printCallers s rel) :=
    lines_eq_entries R printCallers s rel s.length
  have key : ∀ k N, (printLines R printCallers s rel)[k]? = some (omittedLine N) →
      1 ≤ N ∧ ∃ i, i < s.length ∧
        (printLines R printCallers s rel)[k + 1]? =
          some (renderFrame (frame R s i) (walk R printCallers s rel i).prev) := by
    intro k N h
    rw [hl, List.getElem?_map] at h
    cases he : (entries R printCallers s rel s.length)[k]? with
    | none => rw [he] at h; exact Option.noConfusion h
    | some e =>
      rw [he] at h
      simp only [Option.map_some', Option.some.injEq] at h
      cases e with
      | frameAt i => exact absurd h (renderFrame_ne_omittedLine _ _ _)
      | omitted K =>
        obtain ⟨hK, i, hi, hnext⟩ := entries_anchored R printCallers s rel s.length k K he
        have hN : 1 ≤ N := by
          by_contra h0
          have hz : N = 0 := by omega
          subst hz
          have := omittedLine_eq_zero K h
          omega
        refine ⟨hN, i, hi, ?_⟩
        rw [hl, List.getElem?_map, hnext]
        rfl
  refine ⟨key, ?_, ?_, ?_⟩
  · rintro k N M ⟨h1, h2⟩
    obtain ⟨_, i, _, h3⟩ := key k N h1
    rw [h3] at h2
    exact renderFrame_ne_omittedLine _ _ _ (Option.some.inj h2)
  · intro N h
    rw [List.getLast?_eq_getElem?] at h
    have hlt := getElem?_lt_of_some _ _ _ h
    obtain ⟨_, i, _, h3⟩ := key _ N h
    have hlt2 := getElem?_lt_of_some _ _ _ h3
    omega
  · intro p hp hskip
    exact lines_unchanged_of_skipped R printCallers s rel p s.length hp hskip

theorem markers_anchored_witness :
    printLines demoRuntime [] [7, 6, 2, 5, 1] false =
        ["app/main.go:10: main.main".toList, "<1 frames omitted>".toList,
          "app/handle.go:20: ...handle".toList] ∧
      (1 ≤ 1 ∧ ∃ i, i < [7, 6, 2, 5, 1].length ∧
        (printLines demoRuntime [] [7, 6, 2, 5, 1] false)[1 + 1]? =
          some (renderFrame (frame demoRuntime [7, 6, 2, 5, 1] i)
            (walk demoRuntime [] [7, 6, 2, 5, 1] false i).prev)) ∧
      printLines demoRuntime [] [7, 6, 2, 5, 1] false =
        (walk demoRuntime [] [7, 6, 2, 5, 1] false 3).lines :=
  ⟨by decide,
    (markers_anchored demoRuntime [] [7, 6, 2, 5, 1] false).1 1 1 (by decide),
    (markers_anchored demoRuntime [] [7, 6, 2, 5, 1] false).2.2.2 3 (by decide)
      (by
        intro i h1 h2
        have h3 : i < 5 := by simpa using h2
        interval_cases i <;> decide)⟩

/-! ## Claims about `printStack`: the shared call chain -/

theorem sharedRun_spec (R : Runtime) (printCallers s : stack) :
    sharedRun R printCallers s ≤ min s.length printCallers.length ∧
      (∀ i, i < sharedRun R printCallers s →
        (frame R s i).Func = (frame R printCallers i).Func) ∧
      (sharedRun R printCallers s < min s.length printCallers.length →
        (frame R s (sharedRun R printCallers s)).Func ≠
          (frame R printCallers (sharedRun R printCallers s)).Func) := by
  have h0 : (fun m => ∀ i, i < m → (frame R s i).Func = (frame R printCallers i).Func) 0 := by
    intro i hi; omega
  have hspec := Nat.findGreatest_spec
    (P := fun m => ∀ i, i < m → (frame R s i).Func = (frame R printCallers i).Func)
    (Nat.zero_le (min s.length printCallers.length)) h0
  refine ⟨Nat.findGreatest_le _, hspec, ?_⟩
  intro hlt heq
  have hgreat := Nat.findGreatest_is_greatest
    (P := fun m => ∀ i, i < m → (frame R s i).Func = (frame R printCallers i).Func)
    (Nat.lt_succ_self (sharedRun R printCallers s)) hlt
  apply hgreat
  intro i hi
  rcases Nat.lt_or_ge i (sharedRun R printCallers s) with h1 | h1
  · exact hspec i h1
  · have : i = sharedRun R printCallers s := by omega
    rw [this]
    exact heq

/-- An iteration inside `printCallers` that does not drop its frame as
shared sets `diff`. -/
theorem printStep_sets_diff (R : Runtime) (s printCallers : stack) (sk : GoString → Bool)
    (st : PrintState) (i : Nat) (hi : i < printCallers.length)
    (hne : (frame R s i).Func ≠ (frame R printCallers i).Func) :
    (printStep R s printCallers sk st i).diff = true := by
  have ha : ¬ (st.diff = false ∧ i < printCallers.length ∧
      (frame R s i).Func = (frame R printCallers i).Func) := fun h => hne h.2.2
  by_cases hn : (frame R s i).Func = st.prev
  · rw [printStep_repeat R s printCallers sk st i ha hn]
    simp [hi]
  · by_cases hs : sk (frame R s i).File = true
    · rw [printStep_skip R s printCallers sk st i ha hn hs]
      simp [hi]
    · rw [printStep_emit R s printCallers sk st i ha hn (by simpa using hs)]
      simp [hi]

/-- While the names agree, the loop stays in its initial state. -/
theorem walk_shared_run (R : Runtime) (printCallers s : stack) :
    ∀ n, n ≤ sharedRun R printCallers s →
      walk R printCallers s true n =
        { prev := [], diff := false, lines := [], skippingFrames := 0 } := by
  intro n
  induction n with
  | zero => intro _; rfl
  | succ n ih =>
    intro hn
    have hspec := sharedRun_spec R printCallers s
    have hstep : walk R printCallers s true (n + 1) =
        printStep R s printCallers (frameSkipper R s) (walk R printCallers s true n) n := rfl
    rw [hstep, ih (by omega)]
    exact printStep_shared R s printCallers (frameSkipper R s) _ n rfl (by omega)
      (hspec.2.1 n (by omega))

/-- Behind the shared run the comparison with `printCallers` is over. -/
theorem walk_settled_after_shared (R : Runtime) (printCallers s : stack)
    (hm : sharedRun R printCallers s < s.length) :
    ∀ i, sharedRun R printCallers s < i →
      (walk R printCallers s true i).diff = true ∨ printCallers.length ≤ i := by
  intro i
  induction i with
  | zero => intro h; omega
  | succ i ih =>
    intro hi
    rcases Nat.lt_or_ge (sharedRun R printCallers s) i with h1 | h1
    · exact printLoop_settled_succ R s printCallers (frameSkipper R s) true i (ih h1)
    · have hi2 : i = sharedRun R printCallers s := by omega
      have hspec := sharedRun_spec R printCallers s
      rcases Nat.lt_or_ge i printCallers.length with h2 | h2
      · left
        have hne := hspec.2.2 (by omega)
        rw [← hi2] at hne
        exact printStep_sets_diff R s printCallers (frameSkipper R s) _ i h2 hne
      · right; omega

/-- The line of a frame is among the entries only if its iteration printed
it. -/
theorem frameAt_mem_entries (R : Runtime) (printCallers s : stack) (rel : Bool) (i : Nat) :
    ∀ n, Entry.frameAt i ∈ entries R printCallers s rel n →
      emitted R printCallers s rel i ∧ i < n := by
  intro n
  induction n with
  | zero => intro h; simp [entries] at h
  | succ n ih =>
    intro h
    rcases entries_succ R printCallers s rel n with ⟨_, e⟩ | ⟨he, _, e⟩ | ⟨he, _, e⟩
    · rw [e] at h
      obtain ⟨h1, h2⟩ := ih h
      exact ⟨h1, by omega⟩
    · rw [e] at h
      rcases List.mem_append.mp h with h1 | h1
      · obtain ⟨h2, h3⟩ := ih h1
        exact ⟨h2, by omega⟩
      · simp only [List.mem_singleton, Entry.frameAt.injEq] at h1
        subst h1
        exact ⟨he, by omega⟩
    · rw [e] at h
      rcases List.mem_append.mp h with h1 | h1
      · obtain ⟨h2, h3⟩ := ih h1
        exact ⟨h2, by omega⟩
      · simp only [List.mem_cons, List.mem_singleton, Entry.frameAt.injEq, List.mem_nil_iff,
          or_false] at h1
        rcases h1 with h1 | h1
        · exact Entry.noConfusion h1
        · subst h1
          exact ⟨he, by omega⟩

/-- A frame dropped as shared leaves the state of the loop as it was: no
line, no marker count, no new `prev`. -/
theorem droppedAsShared_unchanged (R : Runtime) (printCallers s : stack) (rel : Bool)
    (i : Nat) (h : droppedAsShared R printCallers s rel i) :
    walk R printCallers s rel (i + 1) = walk R printCallers s rel i ∧
      ¬ emitted R printCallers s rel i := by
  obtain ⟨hd, hi, hn⟩ := h
  have hstep : walk R printCallers s rel (i + 1) =
      printStep R s printCallers (frameSkipper R s) (walk R printCallers s rel i) i := rfl
  have hsame : walk R printCallers s rel (i + 1) = walk R printCallers s rel i := by
    rw [hstep]
    exact printStep_shared R s printCallers (frameSkipper R s) _ i hd hi hn
  refine ⟨hsame, ?_⟩
  unfold emitted
  rw [hsame]
  omega

/-- C15 (self-call-chain de-duplication): with `relativeStackOnly = true`
the frames that the shared-boilerplate rule drops are exactly those at the
walk positions `0 .. m-1`, for the largest `m ≤ min(len(s), len(printCallers))`
such that the names of `frame(s, i)` and `frame(printCallers, i)` agree for
all `i < m`; from position `m` on the rule drops nothing, whether or not
later names agree.  A dropped frame leaves the loop through the `continue`
of line 83: the state is unchanged, the frame adds no line to `lines`, and
after the `m` shared positions the loop is still in its initial state; from
`m` on a frame is printed exactly when the repeat rule and the classifier
let it through. -/
theorem shared_run_dropped (R : Runtime) (printCallers s : stack) :
    sharedRun R printCallers s ≤ min s.length printCallers.length ∧
      (∀ i, i < sharedRun R printCallers s →
        (frame R s i).Func = (frame R printCallers i).Func) ∧
      (sharedRun R printCallers s < min s.length printCallers.length →
        (frame R s (sharedRun R printCallers s)).Func ≠
          (frame R printCallers (sharedRun R printCallers s)).Func) ∧
      (∀ i, i < s.length →
        (droppedAsShared R printCallers s true i ↔ i < sharedRun R printCallers s)) ∧
      (∀ i, sharedRun R printCallers s ≤ i → i < s.length →
        ¬ droppedAsShared R printCallers s true i) ∧
      (∀ i, droppedAsShared R printCallers s true i →
        walk R printCallers s true (i + 1) = walk R printCallers s true i ∧
          ¬ emitted R printCallers s true i) ∧
      (∀ i, i < sharedRun R printCallers s →
        ¬ emitted R printCallers s true i ∧
          Entry.frameAt i ∉ entries R printCallers s true s.length) ∧
      walk R printCallers s true (sharedRun R printCallers s) =
        { prev := [], diff := false, lines := [], skippingFrames := 0 } ∧
      ∀ i, sharedRun R printCallers s ≤ i → i < s.length →
        (emitted R printCallers s true i ↔
          ((frame R s i).Func ≠ (walk R printCallers s true i).prev ∧
            frameSkipper R s (frame R s i).File = false)) := by
  have hspec := sharedRun_spec R printCallers s
  have hnot : ∀ i, sharedRun R printCallers s ≤ i → i < s.length →
      ¬ droppedAsShared R printCallers s true i := by
    intro i hmi hi hd
    obtain ⟨hdiff, hlt, hname⟩ := hd
    rcases Nat.lt_or_ge (sharedRun R printCallers s) i with h1 | h1
    · rcases walk_settled_after_shared R printCallers s (by omega) i h1 with h2 | h2
      · rw [hdiff] at h2; exact Bool.noConfusion h2
      · omega
    · have hi2 : i = sharedRun R printCallers s := by omega
      have hne := hspec.2.2 (by omega)
      rw [← hi2] at hne
      exact hne hname
  have hdrop : ∀ i, i < sharedRun R printCallers s →
      droppedAsShared R printCallers s true i := by
    intro i hlt
    refine ⟨?_, by omega, hspec.2.1 i hlt⟩
    rw [walk_shared_run R printCallers s i (by omega)]
  refine ⟨hspec.1, hspec.2.1, hspec.2.2, ?_, hnot, ?_, ?_, ?_, ?_⟩
  · intro i hi
    constructor
    · intro hd
      by_contra hge
      exact hnot i (by omega) hi hd
    · exact hdrop i
  · intro i hd
    exact droppedAsShared_unchanged R printCallers s true i hd
  · intro i hlt
    have hne := (droppedAsShared_unchanged R printCallers s true i (hdrop i hlt)).2
    exact ⟨hne, fun hmem => hne (frameAt_mem_entries R printCallers s true i _ hmem).1⟩
  · exact walk_shared_run R printCallers s _ (Nat.le_refl _)
  · intro i hmi hi
    rw [emitted_iff]
    have hnd := hnot i hmi hi
    constructor
    · intro h; exact h.2
    · intro h; exact ⟨hnd, h⟩

theorem shared_run_dropped_witness :
    sharedRun demoRuntime [2, 9, 1] [2, 3, 1] = 1 ∧
      droppedAsShared demoRuntime [2, 9, 1] [2, 3, 1] true 0 ∧
      (frame demoRuntime [2, 3, 1] 2).Func = (frame demoRuntime [2, 9, 1] 2).Func ∧
      ¬ droppedAsShared demoRuntime [2, 9, 1] [2, 3, 1] true 2 ∧
      (¬ emitted demoRuntime [2, 9, 1] [2, 3, 1] true 0 ∧
        Entry.frameAt 0 ∉ entries demoRuntime [2, 9, 1] [2, 3, 1] true [2, 3, 1].length) ∧
      emitted demoRuntime [2, 9, 1] [2, 3, 1] true 2 ∧
      printLines demoRuntime [2, 9, 1] [2, 3, 1] true =
        ["app/validate.go:30: main.validate".toList, "app/handle.go:20: ...handle".toList] :=
  ⟨by decide,
    ((shared_run_dropped demoRuntime [2, 9, 1] [2, 3, 1]).2.2.2.1 0 (by decide)).mpr
      (by decide),
    by decide,
    (shared_run_dropped demoRuntime [2, 9, 1] [2, 3, 1]).2.2.2.2.1 2 (by decide) (by decide),
    (shared_run_dropped demoRuntime [2, 9, 1] [2, 3, 1]).2.2.2.2.2.2.1 0 (by decide),
    ((shared_run_dropped demoRuntime [2, 9, 1] [2, 3, 1]).2.2.2.2.2.2.2.2 2 (by decide)
      (by decide)).mpr (by decide),
    by decide⟩

/-! ## Claims about `printStack`: the separator -/

theorem intercalate_cons (sep l : GoString) (ls : List GoString) :
    List.intercalate sep (l :: ls) = l ++ (ls.map (fun x => sep ++ x)).flatten := by
  induction ls generalizing l with
  | nil => simp [List.intercalate]
  | cons m ms ih =>
    have h := ih m
    simp only [List.intercalate] at h ⊢
    simp only [List.intersperse_cons₂, List.flatten_cons, List.map_cons]
    rw [h]
    simp

theorem foldl_pad (sep : GoString) :
    ∀ (ls : List GoString) (b : GoString), b ≠ [] →
      ls.foldl (fun buf line => pad buf sep ++ line) b =
        b ++ (ls.map (fun x => sep ++ x)).flatten := by
  intro ls
  induction ls with
  | nil => intro b _; simp
  | cons l ls ih =>
    intro b hb
    have hpad : pad b sep = b ++ sep := by
      cases b with
      | nil => exact absurd rfl hb
      | cons c cs => rfl
    rw [List.foldl_cons, hpad, ih _ (by simp [hb])]
    simp

/-- Into an empty buffer, lines that are not empty are written joined by
the separator. -/
theorem writeLines_eq_intercalate (R : Runtime) (lines : List GoString)
    (hne : ∀ l ∈ lines, l ≠ []) :
    writeLines R lines [] = List.intercalate R.Separator lines.reverse := by
  unfold writeLines
  cases hrev : lines.reverse with
  | nil => simp [List.intercalate]
  | cons l ls =>
    have hl : l ≠ [] := hne l (by
      have : l ∈ lines.reverse := by rw [hrev]; simp
      simpa using this)
    rw [List.foldl_cons]
    have hpad : pad [] R.Separator ++ l = l := rfl
    rw [hpad, foldl_pad R.Separator ls l hl, intercalate_cons]

theorem printLines_ne_nil (R : Runtime) (printCallers s : stack) (rel : Bool) :
    ∀ l ∈ printLines R printCallers s rel, l ≠ [] := by
  intro l hl
  have h : printLines R printCallers s rel =
      (entries R printCallers s rel s.length).map (entryText R printCallers s rel) :=
    lines_eq_entries R printCallers s rel s.length
  rw [h] at hl
  obtain ⟨e, _, rfl⟩ := List.mem_map.mp hl
  cases e with
  | omitted N => exact omittedLine_ne_nil N
  | frameAt i => exact renderFrame_ne_nil _ _

theorem printStack_eq_writeLines (R : Runtime) (chain : List Nat) (s : stack)
    (b : GoString) (rel : Bool) :
    printStack R chain s b rel = writeLines R (printLines R (callers chain 0) s rel) b := by
  unfold printStack
  split
  · rename_i h
    have hs : s = [] := List.length_eq_zero.mp h
    subst hs
    rfl
  · rfl

/-- C12 (output separator contract): for every stack written by
`printStack`, or by `GetStack`, into an empty buffer, the text is the lines
of `lines`, last entry first, joined by `Separator`; it ends with the first
entry of `lines`, the outermost line, and nothing is written behind it. -/
theorem output_separator (R : Runtime) (chain : List Nat) (s : stack) (rel : Bool) :
    printStack R chain s [] rel =
        List.intercalate R.Separator (printLines R (callers chain 0) s rel).reverse ∧
      (∀ l0 rest, printLines R (callers chain 0) s rel = l0 :: rest →
        l0 <:+ printStack R chain s [] rel) ∧
      ∀ (chain2 : List Nat) (d : Nat),
        GetStack R chain chain2 d =
          List.intercalate R.Separator
            (printLines R (callers chain2 0) (callers chain (d + 1)) false).reverse := by
  have h : ∀ (c : List Nat) (t : stack) (r : Bool),
      printStack R c t [] r =
        List.intercalate R.Separator (printLines R (callers c 0) t r).reverse := by
    intro c t r
    rw [printStack_eq_writeLines]
    exact writeLines_eq_intercalate R _ (printLines_ne_nil R _ t r)
  refine ⟨h chain s rel, ?_, ?_⟩
  · intro l0 rest hl
    rw [printStack_eq_writeLines, hl]
    unfold writeLines
    rw [List.reverse_cons, List.foldl_append]
    exact List.suffix_append _ _
  · intro chain2 d
    exact h chain2 (callers chain (d + 1)) false

theorem output_separator_witness :
    printStack demoRuntime [] [2, 7, 6, 5, 1] [] false =
        ("app/handle.go:20: ...handle" ++ ":\n\t" ++ "<3 frames omitted>" ++ ":\n\t" ++
          "app/main.go:10: main.main").toList ∧
      "app/main.go:10: main.main".toList <:+
        printStack demoRuntime [] [2, 7, 6, 5, 1] [] false :=
  ⟨by decide,
    (output_separator demoRuntime [] [2, 7, 6, 5, 1] false).2.1
      "app/main.go:10: main.main".toList
      ["<3 frames omitted>".toList, "app/handle.go:20: ...handle".toList] (by decide)⟩

end Errs
